import Mathlib

/-!
Verification of the `bearnotes` core (notes.go): the Bear-note parser
(`LoadNote`), the item builders (`NewTag`, `NewFile`, `NewImage`), the path
escaping helper (`escapePath`), and the serializer (`WriteNote`).

Modelling conventions.

* Go strings are modelled as `List Char` (sequences of runes).  Positions in
  the text are rune indices; Go uses byte offsets, which order rune positions
  the same way, so span ordering and disjointness are unaffected.
* The three package-level regular expressions are hand-compiled into explicit
  matching functions with the exact leftmost-first (Perl preference) semantics
  of Go `regexp`:
  - `reTag  = (^|.?)#([\p{L}][-\p{L}\p{N}/$_§%=+°({[\\@]*)(.?|$)`
  - `reFile = <a +href=['"]([^'"]+)['"]>([^<]+)</a>`
  - `reImage = !\[([^\]]*)]\(([^(]+)\)`
  In Go, `.` does not match a newline; negated character classes do.
* The Unicode classes `\p{L}` (letters) and `\p{N}` (numbers) are external
  tables; the development is parameterised over them via `RuneClass`.
  Universal theorems hold for every table; theorems about concrete ASCII
  inputs assume only that the table agrees with Unicode on ASCII
  (`AgreesOnAscii`), which the real tables do.
* `unicode.IsSpace` checks the full White_Space property, a fixed finite set
  of code points, reproduced exactly in `goIsSpace`.
* `url.PathEscape` / `url.PathUnescape` (net/url with mode
  `encodePathSegment`) are modelled at rune level: escaping emits `%XX` for
  every UTF-8 byte of a rune that is not in the unreserved set, and
  unescaping decodes the byte string and re-assembles runes.  `pathUnescape`
  returns `none` where Go returns an `EscapeError` (malformed percent
  escape), and also for decoded byte strings that are not valid UTF-8,
  which a rune-level string cannot represent (no claim exercises that case).
* Go panics (out-of-range slicing in `WriteNote`) are modelled by `Option`:
  `WriteNote` returns `none` exactly where the Go code panics.
-/

namespace Bearnotes

/-- `slice t a b` models the Go string slice `t[a:b]` (half-open). -/
def slice (t : List Char) (a b : Nat) : List Char := (t.take b).drop a

/-- Length of the maximal prefix of `l` whose characters all satisfy `p`;
used to model greedy character-class repetition. -/
def runLen (p : Char → Bool) : List Char → Nat
  | [] => 0
  | c :: cs => if p c then runLen p cs + 1 else 0

/-- Index of the last element of `l` satisfying `p`, if any. -/
def lastIdxOf? (p : Char → Bool) : List Char → Option Nat
  | [] => none
  | c :: cs =>
    match lastIdxOf? p cs with
    | some i => some (i + 1)
    | none => if p c then some 0 else none

/-- `litAt t i lit` holds when the literal string `lit` occurs in `t`
starting at position `i`. -/
def litAt (t : List Char) (i : Nat) : List Char → Bool
  | [] => true
  | c :: cs =>
    match t[i]? with
    | some d => d == c && litAt t (i + 1) cs
    | none => false

/-- The Unicode classes used by `reTag` (`\p{L}` and `\p{N}`); the parser is
parameterised over these external tables. -/
structure RuneClass where
  letter : Char → Bool
  number : Char → Bool

/-- The restriction of the Unicode tables to ASCII: `\p{L}` restricted to
ASCII is `[A-Za-z]` and `\p{N}` restricted to ASCII is `[0-9]`. -/
def asciiRC : RuneClass where
  letter c := ('a' ≤ c && c ≤ 'z') || ('A' ≤ c && c ≤ 'Z')
  number c := '0' ≤ c && c ≤ '9'

/-- A table is admissible when it agrees with the Unicode tables on ASCII;
the real `\p{L}` and `\p{N}` tables satisfy this. -/
def AgreesOnAscii (Γ : RuneClass) : Prop :=
  ∀ c : Char, c.toNat < 128 →
    Γ.letter c = asciiRC.letter c ∧ Γ.number c = asciiRC.number c

/-- Go `unicode.IsSpace`: the White_Space property, the exact finite set of
white-space code points. -/
def goIsSpace (c : Char) : Bool :=
  let n := c.toNat
  (9 ≤ n && n ≤ 13) || n == 32 || n == 0x85 || n == 0xA0 || n == 0x1680 ||
    (0x2000 ≤ n && n ≤ 0x200A) || n == 0x2028 || n == 0x2029 ||
    n == 0x202F || n == 0x205F || n == 0x3000

/-- The literal symbols of the tag-name character class
`[-\p{L}\p{N}/$_§%=+°({[\\@]`, besides the letter and number classes. -/
def tagSymbols : List Char :=
  ['-', '/', '$', '_', '§', '%', '=', '+', '°', '(', '{', '[', '\\', '@']

/-- Membership in the tag-name repetition class. -/
def inTagStar (Γ : RuneClass) (c : Char) : Bool :=
  Γ.letter c || Γ.number c || tagSymbols.contains c

/-- A match of `reTag`: the span starts at `start`; group 1 takes `g1len`
runes (0 or 1), then the literal `#`, then the name (`nameLen ≥ 1` runes),
then group 3 (`g3len` runes, 0 or 1). -/
structure TagM where
  start : Nat
  g1len : Nat
  nameLen : Nat
  g3len : Nat
  deriving DecidableEq, Repr

/-- Position one past the end of the match. -/
def TagM.stop (m : TagM) : Nat := m.start + m.g1len + 1 + m.nameLen + m.g3len

/-- The mandatory core of `reTag` at position `i`: the literal `#` followed
by a letter (head of `[\p{L}]...`). -/
def tagCoreAt (Γ : RuneClass) (t : List Char) (i : Nat) : Bool :=
  t[i]? == some '#' &&
    (match t[i + 1]? with
     | some c => Γ.letter c
     | none => false)

/-- Length of the name captured by group 2 when the core holds at `hashPos`:
the letter at `hashPos+1` plus the maximal run of class characters. -/
def tagNameLenAt (Γ : RuneClass) (t : List Char) (hashPos : Nat) : Nat :=
  1 + runLen (inTagStar Γ) (t.drop (hashPos + 2))

/-- Length of group 3 `(.?|$)` starting at `i`: one rune when a rune other
than a newline is present (`.` does not match a newline in Go), else zero. -/
def tagG3At (t : List Char) (i : Nat) : Nat :=
  match t[i]? with
  | some c => if c = '\n' then 0 else 1
  | none => 0

/-- Assemble the match of `reTag` whose `#` sits at `hashPos` with group 1
occupying `g1len` runes before it. -/
def tagMk (Γ : RuneClass) (t : List Char) (s g1len : Nat) : TagM :=
  let nameLen := tagNameLenAt Γ t (s + g1len)
  { start := s, g1len := g1len, nameLen := nameLen
    g3len := tagG3At t (s + g1len + 1 + nameLen) }

/-- The leftmost-first match of `reTag` anchored at start position `s`:
the alternation `(^|.?)` tries `^` first (only at the true start of the
text), then `.?` with one rune, then `.?` empty. -/
def tagTryAt (Γ : RuneClass) (t : List Char) (s : Nat) : Option TagM :=
  if s == 0 && tagCoreAt Γ t 0 then some (tagMk Γ t 0 0)
  else if (match t[s]? with
           | some c => c ≠ '\n'
           | none => false) && tagCoreAt Γ t (s + 1) then
    some (tagMk Γ t s 1)
  else if tagCoreAt Γ t s then some (tagMk Γ t s 0)
  else none

/-- The leftmost match of `reTag` at or after position `pos`. -/
def tagFindFrom (Γ : RuneClass) (t : List Char) (pos : Nat) : Option TagM :=
  (List.range' pos (t.length + 1 - pos)).findSome? (tagTryAt Γ t)

/-- Generic model of Go `FindAllStringIndex`: repeatedly take the leftmost
match at or after the cursor and continue at its end (advancing by at least
one position).  The fuel is always instantiated with more steps than there
can be matches, since every match of the three grammars is nonempty. -/
def findAllAux (next : Nat → Option (Nat × Nat)) : Nat → Nat → List (Nat × Nat)
  | 0, _ => []
  | fuel + 1, pos =>
    match next pos with
    | none => []
    | some (s, e) => (s, e) :: findAllAux next fuel (max e (pos + 1))

/-- `reTag.FindAllStringIndex(t, -1)`. -/
def tagFindAll (Γ : RuneClass) (t : List Char) : List (Nat × Nat) :=
  findAllAux (fun pos => (tagFindFrom Γ t pos).map fun m => (m.start, m.stop))
    (t.length + 1) 0

/-- A match of `reFile`: positions and lengths of the two capture groups
(the quoted href and the anchor text) and the end of the whole match. -/
structure FileM where
  start : Nat
  locStart : Nat
  locLen : Nat
  nameStart : Nat
  nameLen : Nat
  stop : Nat
  deriving DecidableEq, Repr

/-- Not a single or double quote (the class `[^'"]`). -/
def notQuote (c : Char) : Bool := c ≠ '\'' && c ≠ '"'

/-- A single or double quote (the class `['"]`). -/
def isQuote (c : Char) : Bool := c = '\'' || c = '"'

/-- The match of `reFile` anchored at start position `s`:
`<a +href=['"]([^'"]+)['"]>([^<]+)</a>`.  Each greedy repetition is followed
by a literal excluded from its class, so the maximal run is the only
candidate and no backtracking arises. -/
def fileTryAt (t : List Char) (s : Nat) : Option FileM :=
  if litAt t s ['<', 'a'] then
    let k := runLen (· == ' ') (t.drop (s + 2))
    if 1 ≤ k && litAt t (s + 2 + k) ['h', 'r', 'e', 'f', '='] then
      match t[s + 7 + k]? with
      | some q1 =>
        if isQuote q1 then
          let locStart := s + 8 + k
          let locLen := runLen notQuote (t.drop locStart)
          if 1 ≤ locLen then
            match t[locStart + locLen]? with
            | some q2 =>
              if isQuote q2 && (t[locStart + locLen + 1]? == some '>') then
                let nameStart := locStart + locLen + 2
                let nameLen := runLen (· ≠ '<') (t.drop nameStart)
                if 1 ≤ nameLen &&
                    litAt t (nameStart + nameLen) ['<', '/', 'a', '>'] then
                  some { start := s, locStart := locStart, locLen := locLen
                         nameStart := nameStart, nameLen := nameLen
                         stop := nameStart + nameLen + 4 }
                else none
              else none
            | none => none
          else none
        else none
      | none => none
    else none
  else none

/-- The leftmost match of `reFile` at or after position `pos`. -/
def fileFindFrom (t : List Char) (pos : Nat) : Option FileM :=
  (List.range' pos (t.length + 1 - pos)).findSome? (fileTryAt t)

/-- `reFile.FindAllStringIndex(t, -1)`. -/
def fileFindAll (t : List Char) : List (Nat × Nat) :=
  findAllAux (fun pos => (fileFindFrom t pos).map fun m => (m.start, m.stop))
    (t.length + 1) 0

/-- A match of `reImage`: positions and lengths of the description and the
path capture groups, and the end of the whole match. -/
structure ImageM where
  start : Nat
  descLen : Nat
  locStart : Nat
  locLen : Nat
  stop : Nat
  deriving DecidableEq, Repr

/-- The match of `reImage` anchored at start position `s`:
`!\[([^\]]*)]\(([^(]+)\)`.  Group 2 is greedy and the closer `)` is inside
its class, so the leftmost-first semantics selects the last `)` inside the
maximal run of non-`(` characters. -/
def imageTryAt (t : List Char) (s : Nat) : Option ImageM :=
  if litAt t s ['!', '['] then
    let descLen := runLen (· ≠ ']') (t.drop (s + 2))
    if litAt t (s + 2 + descLen) [']', '('] then
      let locStart := s + 4 + descLen
      let run := runLen (· ≠ '(') (t.drop locStart)
      match lastIdxOf? (· = ')') (slice t (locStart + 1) (locStart + run)) with
      | some j =>
        some { start := s, descLen := descLen, locStart := locStart
               locLen := j + 1, stop := locStart + j + 2 }
      | none => none
    else none
  else none

/-- The leftmost match of `reImage` at or after position `pos`. -/
def imageFindFrom (t : List Char) (pos : Nat) : Option ImageM :=
  (List.range' pos (t.length + 1 - pos)).findSome? (imageTryAt t)

/-- `reImage.FindAllStringIndex(t, -1)`. -/
def imageFindAll (t : List Char) : List (Nat × Nat) :=
  findAllAux (fun pos => (imageFindFrom t pos).map fun m => (m.start, m.stop))
    (t.length + 1) 0

/-! ### The net/url fragment used by the package

`url.PathEscape` and `url.PathUnescape` from the Go standard library, with
`mode = encodePathSegment`. -/

/-- The upper-case hexadecimal digits, indexed as in Go
(`upperhex = "0123456789ABCDEF"`). -/
def hexDig (n : Nat) : Char :=
  ['0', '1', '2', '3', '4', '5', '6', '7', '8', '9',
   'A', 'B', 'C', 'D', 'E', 'F'].getD n '0'

/-- Value of a hexadecimal digit; Go `ishex`/`unhex` accept both cases. -/
def hexVal (c : Char) : Option Nat :=
  if '0' ≤ c && c ≤ '9' then some (c.toNat - 48)
  else if 'A' ≤ c && c ≤ 'F' then some (c.toNat - 55)
  else if 'a' ≤ c && c ≤ 'f' then some (c.toNat - 87)
  else none

/-- The percent escape `%XX` of one byte. -/
def percentEnc (b : Nat) : List Char := ['%', hexDig (b / 16), hexDig (b % 16)]

/-- The UTF-8 encoding of one rune. -/
def utf8Bytes (c : Char) : List Nat :=
  let n := c.toNat
  if n < 0x80 then [n]
  else if n < 0x800 then [0xC0 + n / 64, 0x80 + n % 64]
  else if n < 0x10000 then
    [0xE0 + n / 4096, 0x80 + n / 64 % 64, 0x80 + n % 64]
  else
    [0xF0 + n / 0x40000, 0x80 + n / 4096 % 64, 0x80 + n / 64 % 64,
     0x80 + n % 64]

/-- The UTF-8 encoding of a rune string as a byte string. -/
def utf8Str (s : List Char) : List Nat := s.flatMap utf8Bytes

/-- Decodes one UTF-8 code point from the front of a byte string, giving
the code point and the remaining bytes; mirrors the validity checks of Go
`utf8.DecodeRuneInString` (truncated sequences, stray continuation bytes,
overlong encodings, surrogates and out-of-range values all fail). -/
def utf8Step : List Nat → Option (Nat × List Nat)
  | [] => none
  | b :: bs =>
    if b < 0x80 then some (b, bs)
    else if b < 0xC0 then none
    else if b < 0xE0 then
      match bs with
      | c1 :: bs' =>
        if 0x80 ≤ c1 && c1 < 0xC0 then
          let n := (b - 0xC0) * 64 + (c1 - 0x80)
          if n < 0x80 then none else some (n, bs')
        else none
      | _ => none
    else if b < 0xF0 then
      match bs with
      | c1 :: c2 :: bs' =>
        if (0x80 ≤ c1 && c1 < 0xC0) && (0x80 ≤ c2 && c2 < 0xC0) then
          let n := (b - 0xE0) * 4096 + (c1 - 0x80) * 64 + (c2 - 0x80)
          if n < 0x800 || (0xD800 ≤ n && n < 0xE000) then none
          else some (n, bs')
        else none
      | _ => none
    else if b < 0xF8 then
      match bs with
      | c1 :: c2 :: c3 :: bs' =>
        if ((0x80 ≤ c1 && c1 < 0xC0) && (0x80 ≤ c2 && c2 < 0xC0)) &&
            (0x80 ≤ c3 && c3 < 0xC0) then
          let n := (b - 0xF0) * 0x40000 + (c1 - 0x80) * 4096 +
            (c2 - 0x80) * 64 + (c3 - 0x80)
          if n < 0x10000 || 0x110000 ≤ n then none
          else some (n, bs')
        else none
      | _ => none
    else none

/-- Strict UTF-8 decoding of a byte string, one `utf8Step` at a time; the
fuel only serves termination and `utf8Decode` supplies enough of it. -/
def utf8DecodeAux : Nat → List Nat → Option (List Char)
  | _, [] => some []
  | 0, _ :: _ => none
  | fuel + 1, b :: bs =>
    (utf8Step (b :: bs)).bind fun p =>
      (Char.ofNat p.1 :: ·) <$> utf8DecodeAux fuel p.2

/-- Strict UTF-8 decoding of a byte string (rejecting truncated sequences,
overlong encodings, surrogates and out-of-range values). -/
def utf8Decode (bs : List Nat) : Option (List Char) :=
  utf8DecodeAux bs.length bs

/-- The byte-level core of Go `unescape(s, encodePathSegment)`: a `%` must
be followed by two hexadecimal digits (else Go returns an `EscapeError`,
modelled by `none`); `+` and every other rune pass through as their UTF-8
bytes. -/
def decodeToBytes : List Char → Option (List Nat)
  | [] => some []
  | c :: rest =>
    if c = '%' then
      match rest with
      | c1 :: c2 :: rest' =>
        match hexVal c1, hexVal c2 with
        | some h, some l => ((16 * h + l) :: ·) <$> decodeToBytes rest'
        | _, _ => none
      | _ => none
    else (utf8Bytes c ++ ·) <$> decodeToBytes rest

/-- Go `url.PathUnescape` at rune level: `none` models an `EscapeError`
(and, as a modelling boundary, a decoded byte string that is not valid
UTF-8). -/
def pathUnescape (s : List Char) : Option (List Char) :=
  (decodeToBytes s).bind utf8Decode

/-- The bytes Go `shouldEscape(c, encodePathSegment)` leaves unescaped:
alphanumerics, the unreserved marks `-_.~`, and the reserved characters
`$&+:=@` (everything else, including every non-ASCII byte, is escaped). -/
def isUnreservedSeg (c : Char) : Bool :=
  (('a' ≤ c && c ≤ 'z') || ('A' ≤ c && c ≤ 'Z') || ('0' ≤ c && c ≤ '9')) ||
    [('-' : Char), '_', '.', '~', '$', '&', '+', ':', '=', '@'].contains c

/-- Go `url.PathEscape`: every byte that is not unreserved becomes `%XX`. -/
def pathEscape (s : List Char) : List Char :=
  s.flatMap fun c =>
    if isUnreservedSeg c then [c] else (utf8Bytes c).flatMap percentEnc

/-- Go `strings.Split(s, "/")`. -/
def splitSlash : List Char → List (List Char)
  | [] => [[]]
  | c :: cs =>
    if c = '/' then [] :: splitSlash cs
    else
      match splitSlash cs with
      | p :: ps => (c :: p) :: ps
      | [] => [[c]]

/-- Joining path components back with `/` (the `strings.Builder` loop in
`escapePath`). -/
def intercalateSlash : List (List Char) → List Char
  | [] => []
  | [p] => p
  | p :: ps => p ++ '/' :: intercalateSlash ps

/-- `escapePath` (notes.go): URL-encode a path component by component so
that slashes do not go through URL encoding. -/
def escapePath (path : List Char) : List Char :=
  intercalateSlash ((splitSlash path).map pathEscape)

/-! ### The data model and the item builders -/

/-- A Bear tag (notes.go `Tag`): the name without the leading hashtag, the
span in the file, and the captured boundary characters. -/
structure Tag where
  Name : List Char
  position : Nat × Nat
  before : List Char
  after : List Char
  deriving DecidableEq, Repr

/-- The zero value `Tag{}` (the Go `position` field is a nil slice there;
spans are modelled as pairs, with `(0, 0)` for the nil slice). -/
def Tag.zero : Tag := ⟨[], (0, 0), [], []⟩

/-- `NewTag` (notes.go): re-run `reTag` on the extracted content, then keep
the fields only when each boundary is absent or white space. -/
def NewTag (Γ : RuneClass) (content : List Char) (position : Nat × Nat) :
    Tag :=
  match tagFindFrom Γ content 0 with
  | some m =>
    let g1 := slice content m.start (m.start + m.g1len)
    let name := slice content (m.start + m.g1len + 1)
      (m.start + m.g1len + 1 + m.nameLen)
    let g3 := slice content (m.start + m.g1len + 1 + m.nameLen) m.stop
    let beforeOk := match g1 with
      | [] => true
      | c :: _ => goIsSpace c
    let afterOk := match g3 with
      | [] => true
      | c :: _ => goIsSpace c
    if beforeOk && afterOk then
      { Name := name, position := position, before := g1, after := g3 }
    else Tag.zero
  | none => Tag.zero

/-- `Tag.String()` (notes.go): drop the marker and name when the name is
empty, keeping the boundary characters. -/
def Tag.string (tag : Tag) : List Char :=
  if tag.Name.length = 0 then tag.before ++ tag.after
  else tag.before ++ '#' :: tag.Name ++ tag.after

/-- A file attachment (notes.go `File`). -/
structure File where
  Location : List Char
  Name : List Char
  position : Nat × Nat
  deriving DecidableEq, Repr

/-- `NewFile` (notes.go): re-run `reFile` on the content; the error of
`url.PathUnescape` is discarded, so a failed decode leaves the empty string
that Go returns alongside the error. -/
def NewFile (content : List Char) (position : Nat × Nat) : File :=
  match fileFindFrom content 0 with
  | some m =>
    { Location :=
        (pathUnescape (slice content m.locStart (m.locStart + m.locLen))).getD []
      Name := slice content m.nameStart (m.nameStart + m.nameLen)
      position := position }
  | none => ⟨[], [], (0, 0)⟩

/-- `File.String()` (notes.go): Zettlr Markdown link syntax. -/
def File.string (file : File) : List Char :=
  '[' :: file.Name ++ ']' :: '(' :: escapePath file.Location ++ [')']

/-- An embedded image (notes.go `Image`). -/
structure Image where
  Location : List Char
  Description : List Char
  position : Nat × Nat
  deriving DecidableEq, Repr

/-- `NewImage` (notes.go): re-run `reImage` on the content; as in `NewFile`
the decode error is discarded. -/
def NewImage (content : List Char) (position : Nat × Nat) : Image :=
  match imageFindFrom content 0 with
  | some m =>
    { Location :=
        (pathUnescape (slice content m.locStart (m.locStart + m.locLen))).getD []
      Description := slice content (m.start + 2) (m.start + 2 + m.descLen)
      position := position }
  | none => ⟨[], [], (0, 0)⟩

/-- `Image.String()` (notes.go): Zettlr Markdown image syntax. -/
def Image.string (image : Image) : List Char :=
  '!' :: '[' :: image.Description ++ ']' :: '(' ::
    escapePath image.Location ++ [')']

/-- A note (notes.go `Note`). -/
structure Note where
  Tags : List Tag
  Files : List File
  Images : List Image
  content : List Char
  deriving DecidableEq, Repr

/-- `LoadNote` (notes.go): find all matches of the three grammars, build an
item from each matched substring, and keep a tag only when its name is
nonempty (the validity filter of `NewTag`). -/
def LoadNote (Γ : RuneClass) (content : List Char) : Note where
  content := content
  Tags := (tagFindAll Γ content).filterMap fun se =>
    let tag := NewTag Γ (slice content se.1 se.2) se
    if 0 < tag.Name.length then some tag else none
  Files := (fileFindAll content).map fun se =>
    NewFile (slice content se.1 se.2) se
  Images := (imageFindAll content).map fun se =>
    NewImage (slice content se.1 se.2) se

/-- An item queued for serialization (notes.go `updatedItem`): the rendered
content and the span in the file. -/
abbrev Item := List Char × Nat × Nat

/-- The comparison function passed to `sort.Slice` in `WriteNote`:
`items[i].position[0] < items[j].position[1]`. -/
def lessGo (a b : Item) : Bool := a.2.1 < b.2.2

/-- One step of insertion sort on a reversed prefix: the new element moves
left past every element it compares less than, exactly as in the insertion
sort Go `sort.Slice` runs on small slices (and any comparison sort agrees
with it whenever the comparator is a strict weak ordering). -/
def insertRevd (less : Item → Item → Bool) (x : Item) :
    List Item → List Item
  | [] => [x]
  | y :: ys => if less x y then y :: insertRevd less x ys else x :: y :: ys

/-- Insertion sort (see `insertRevd`), modelling `sort.Slice`. -/
def goSort (less : Item → Item → Bool) (l : List Item) : List Item :=
  (l.foldl (fun r x => insertRevd less x r) []).reverse

/-- The splice loop of `WriteNote`: copy the text between the cursor and
each item, then the rendered item; `none` models the Go panic raised when a
slice bound is out of range. -/
def spliceGo (t : List Char) : Nat → List Item → Option (List Char)
  | c, [] => if c ≤ t.length then some (slice t c t.length) else none
  | c, (r, s, e) :: rest =>
    if c ≤ s && s ≤ t.length then
      (fun tail => slice t c s ++ r ++ tail) <$> spliceGo t e rest
    else none

/-- The canonical splice of a sorted item list: the text between the cursor
and each span, then the rendering, then the rest; total counterpart of
`spliceGo` used to state what `WriteNote` produces. -/
def spliceC (t : List Char) : Nat → List Item → List Char
  | c, [] => slice t c t.length
  | c, (r, s, e) :: rest => slice t c s ++ r ++ spliceC t e rest

/-- The item list assembled by `WriteNote`: tags, then files, then images. -/
def noteItems (n : Note) : List Item :=
  n.Tags.map (fun t => (t.string, t.position)) ++
    n.Files.map (fun f => (f.string, f.position)) ++
    n.Images.map fun i => (i.string, i.position)

/-- `WriteNote` (notes.go): render every item, sort by the comparator of
`lessGo`, then splice the renderings into the original content. -/
def WriteNote (n : Note) : Option (List Char) :=
  spliceGo n.content 0 (goSort lessGo (noteItems n))

/-! ### Basic facts about `slice` and `runLen` -/

theorem slice_getElem? (t : List Char) (a b i : Nat) :
    (slice t a b)[i]? = if a + i < b then t[a + i]? else none := by
  unfold slice
  rw [List.getElem?_drop]
  split
  · exact List.getElem?_take_of_lt (by omega)
  · exact List.getElem?_eq_none (by simp; omega)

theorem slice_eq_nil (t : List Char) (a b : Nat) (h : b ≤ a) :
    slice t a b = [] := by
  unfold slice
  exact List.drop_eq_nil_of_le (by simp; omega)

theorem slice_eq_nil_of_len (t : List Char) (a b : Nat) (h : t.length ≤ a) :
    slice t a b = [] := by
  unfold slice
  exact List.drop_eq_nil_of_le (by simp; omega)

theorem slice_zero_len (t : List Char) : slice t 0 t.length = t := by
  simp [slice]

theorem slice_append (t : List Char) (a b c : Nat) (hab : a ≤ b)
    (hbc : b ≤ c) : slice t a b ++ slice t b c = slice t a c := by
  by_cases hl : a ≤ (t.take b).length
  · unfold slice
    conv_rhs => rw [show t.take c = (t.take c).take b ++ (t.take c).drop b by
      rw [List.take_append_drop]]
    rw [List.take_take, Nat.min_eq_left hbc,
      List.drop_append_eq_append_drop, Nat.sub_eq_zero_of_le hl,
      List.drop_zero]
  · have hlen : t.length < a := by
      simp only [List.length_take] at hl; omega
    rw [slice_eq_nil_of_len t a b (by omega), slice_eq_nil_of_len t b c
      (by omega), slice_eq_nil_of_len t a c (by omega)]
    rfl

theorem slice_singleton (t : List Char) (i : Nat) (c : Char)
    (h : t[i]? = some c) : slice t i (i + 1) = [c] := by
  have hi : i < t.length := by
    by_contra hc
    rw [List.getElem?_eq_none (by omega)] at h
    exact Option.noConfusion h
  apply List.ext_getElem?
  intro j
  rw [slice_getElem?]
  match j with
  | 0 => simpa using h
  | j + 1 => rw [if_neg (by omega)]; simp

theorem runLen_le (p : Char → Bool) (l : List Char) : runLen p l ≤ l.length := by
  induction l with
  | nil => simp [runLen]
  | cons c cs ih =>
    simp only [runLen]
    split
    · simp; omega
    · simp

theorem runLen_take (p : Char → Bool) (l : List Char) :
    ∀ c ∈ l.take (runLen p l), p c = true := by
  induction l with
  | nil => simp
  | cons c cs ih =>
    simp only [runLen]
    split
    · intro d hd
      rw [List.take_succ_cons] at hd
      rcases List.mem_cons.mp hd with h | h
      · subst h; assumption
      · exact ih d h
    · simp

theorem runLen_stop (p : Char → Bool) (l : List Char) (c : Char)
    (h : l[runLen p l]? = some c) : p c = false := by
  induction l with
  | nil => simp at h
  | cons d cs ih =>
    simp only [runLen] at h
    by_cases hd : p d
    · rw [if_pos hd] at h
      exact ih (by simpa using h)
    · rw [if_neg hd] at h
      simp at h
      subst h
      simpa using hd

theorem runLen_append (p : Char → Bool) (xs rest : List Char)
    (h : ∀ c ∈ xs, p c = true) :
    runLen p (xs ++ rest) = xs.length + runLen p rest := by
  induction xs with
  | nil => simp
  | cons c cs ih =>
    have hc : p c = true := h c (List.mem_cons_self c cs)
    simp only [List.cons_append, runLen, hc, if_pos]
    rw [show cs.append rest = cs ++ rest from rfl,
      ih fun d hd => h d (List.mem_cons_of_mem c hd)]
    simp; omega

theorem runLen_eq_of_stop (p : Char → Bool) (xs rest : List Char)
    (h : ∀ c ∈ xs, p c = true)
    (hstop : rest = [] ∨ ∃ c cs, rest = c :: cs ∧ p c = false) :
    runLen p (xs ++ rest) = xs.length := by
  rw [runLen_append p xs rest h]
  rcases hstop with h0 | ⟨c, cs, rfl, hc⟩
  · subst h0; simp [runLen]
  · simp [runLen, hc]

theorem getElem?_some_lt {l : List Char} {i : Nat} {c : Char}
    (h : l[i]? = some c) : i < l.length := by
  by_contra hc
  rw [List.getElem?_eq_none (by omega)] at h
  exact Option.noConfusion h

theorem runLen_lt_getElem? (p : Char → Bool) (l : List Char) (i : Nat)
    (h : i < runLen p l) : ∃ c, l[i]? = some c ∧ p c = true := by
  have hi : i < l.length := lt_of_lt_of_le h (runLen_le p l)
  refine ⟨l[i], List.getElem?_eq_some.mpr ⟨hi, rfl⟩, ?_⟩
  have h1 : (l.take (runLen p l))[i]? = l[i]? := List.getElem?_take_of_lt h
  have hmem : l[i] ∈ l.take (runLen p l) :=
    List.getElem?_mem (by rw [h1]; exact List.getElem?_eq_some.mpr ⟨hi, rfl⟩)
  exact runLen_take p l _ hmem

theorem runLen_stop_or (p : Char → Bool) (l : List Char) :
    l[runLen p l]? = none ∨
      ∃ c, l[runLen p l]? = some c ∧ p c = false := by
  cases h : l[runLen p l]? with
  | none => exact Or.inl rfl
  | some c => exact Or.inr ⟨c, rfl, runLen_stop p l c h⟩

theorem runLen_unique (p : Char → Bool) (l : List Char) (v : Nat)
    (h1 : ∀ i < v, ∃ c, l[i]? = some c ∧ p c = true)
    (h2 : l[v]? = none ∨ ∃ c, l[v]? = some c ∧ p c = false) :
    runLen p l = v := by
  rcases lt_trichotomy (runLen p l) v with hlt | heq | hgt
  · obtain ⟨c, hc, hpc⟩ := h1 _ hlt
    rw [runLen_stop p l c hc] at hpc
    exact absurd hpc (by simp)
  · exact heq
  · obtain ⟨c, hc, hpc⟩ := runLen_lt_getElem? p l v hgt
    rcases h2 with h2 | ⟨d, hd, hpd⟩
    · rw [h2] at hc; exact Option.noConfusion hc
    · rw [hd] at hc
      injection hc with hdc
      subst hdc
      rw [hpc] at hpd
      exact Bool.noConfusion hpd

theorem runLen_eq_of_agree (p : Char → Bool) (l l' : List Char)
    (h : ∀ i ≤ runLen p l, l[i]? = l'[i]?) :
    runLen p l' = runLen p l := by
  refine runLen_unique p l' (runLen p l) ?_ ?_
  · intro i hi
    obtain ⟨c, hc, hpc⟩ := runLen_lt_getElem? p l i hi
    exact ⟨c, (h i (le_of_lt hi)) ▸ hc, hpc⟩
  · rcases runLen_stop_or p l with h0 | ⟨c, hc, hpc⟩
    · exact Or.inl ((h _ le_rfl) ▸ h0)
    · exact Or.inr ⟨c, (h _ le_rfl) ▸ hc, hpc⟩

theorem litAt_cons_le_length (t : List Char) (i : Nat) (c : Char)
    (cs : List Char) (h : litAt t i (c :: cs) = true) :
    i + cs.length + 1 ≤ t.length := by
  induction cs generalizing i c with
  | nil =>
    simp only [litAt] at h
    cases hd : t[i]? with
    | none => rw [hd] at h; exact Bool.noConfusion h
    | some d =>
      have := getElem?_some_lt hd
      simp; omega
  | cons c' cs' ih =>
    simp only [litAt] at h
    cases hd : t[i]? with
    | none => rw [hd] at h; exact Bool.noConfusion h
    | some d =>
      rw [hd] at h
      simp only [Bool.and_eq_true] at h
      have := ih (i + 1) c' h.2
      simp at this ⊢; omega

theorem litAt_congr (lit : List Char) (t t' : List Char) (i i' : Nat)
    (h : ∀ j < lit.length, t[i + j]? = t'[i' + j]?) :
    litAt t i lit = litAt t' i' lit := by
  induction lit generalizing i i' with
  | nil => rfl
  | cons c cs ih =>
    have h0 : t[i]? = t'[i']? := by simpa using h 0 (by simp)
    simp only [litAt, ← h0]
    cases t[i]? with
    | none => rfl
    | some d =>
      rw [ih (i + 1) (i' + 1) fun j hj => by
        have := h (j + 1) (by simp; omega)
        rw [show i + (j + 1) = i + 1 + j by omega,
          show i' + (j + 1) = i' + 1 + j by omega] at this
        exact this]

/-! ### Bounds for the three matchers -/

theorem tagCoreAt_spec (Γ : RuneClass) (t : List Char) (i : Nat)
    (h : tagCoreAt Γ t i = true) :
    t[i]? = some '#' ∧ ∃ c, t[i + 1]? = some c ∧ Γ.letter c = true := by
  simp only [tagCoreAt, Bool.and_eq_true, beq_iff_eq] at h
  refine ⟨h.1, ?_⟩
  rcases hc : t[i + 1]? with _ | c
  · rw [hc] at h; exact absurd h.2 (by simp)
  · rw [hc] at h; exact ⟨c, rfl, h.2⟩

theorem tagG3At_le (t : List Char) (i : Nat) :
    tagG3At t i ≤ 1 ∧ (tagG3At t i = 0 ∨ i < t.length) := by
  unfold tagG3At
  cases hgi : t[i]? with
  | none => simp
  | some d =>
    have := getElem?_some_lt hgi
    refine ⟨?_, Or.inr this⟩
    show (if d = '\n' then 0 else 1) ≤ 1
    split <;> simp

theorem tagMk_bounds (Γ : RuneClass) (t : List Char) (s g1len : Nat)
    (h : tagCoreAt Γ t (s + g1len) = true) :
    (tagMk Γ t s g1len).start = s ∧ (tagMk Γ t s g1len).g1len = g1len ∧
      1 ≤ (tagMk Γ t s g1len).nameLen ∧ (tagMk Γ t s g1len).g3len ≤ 1 ∧
      (tagMk Γ t s g1len).stop ≤ t.length := by
  obtain ⟨h1, c, hc, -⟩ := tagCoreAt_spec Γ t _ h
  have hlt : s + g1len + 1 < t.length := getElem?_some_lt hc
  have hrun : runLen (inTagStar Γ) (t.drop (s + g1len + 2)) ≤
      t.length - (s + g1len + 2) := by
    have := runLen_le (inTagStar Γ) (t.drop (s + g1len + 2))
    simpa using this
  have hne : s + g1len + 1 + tagNameLenAt Γ t (s + g1len) ≤ t.length := by
    simp only [tagNameLenAt]
    omega
  refine ⟨rfl, rfl, by simp [tagMk, tagNameLenAt], ?_, ?_⟩
  · simp only [tagMk]
    exact (tagG3At_le t _).1
  · simp only [tagMk, TagM.stop]
    obtain ⟨ha, hb | hb⟩ :=
      tagG3At_le t (s + g1len + 1 + tagNameLenAt Γ t (s + g1len))
    · omega
    · omega

theorem tagTryAt_spec (Γ : RuneClass) (t : List Char) (s : Nat) (m : TagM)
    (h : tagTryAt Γ t s = some m) :
    m.start = s ∧ 1 ≤ m.nameLen ∧ m.g1len ≤ 1 ∧ m.g3len ≤ 1 ∧
      s + 2 ≤ m.stop ∧ m.stop ≤ t.length := by
  unfold tagTryAt at h
  split at h
  · rename_i hcond
    simp only [Bool.and_eq_true, beq_iff_eq] at hcond
    obtain ⟨hs0, hcore⟩ := hcond
    have hs0' : s = 0 := by simpa using hs0
    subst hs0'
    obtain ⟨h1, h2, h3, h4, h5⟩ := tagMk_bounds Γ t 0 0 (by simpa using hcore)
    injection h with h
    subst h
    simp only [TagM.stop] at *
    exact ⟨h1, h3, by omega, h4, by simp [TagM.stop]; omega, h5⟩
  · split at h
    · rename_i hcond
      simp only [Bool.and_eq_true] at hcond
      obtain ⟨h1, h2, h3, h4, h5⟩ := tagMk_bounds Γ t s 1 hcond.2
      injection h with h
      subst h
      exact ⟨h1, h3, by omega, h4, by simp [TagM.stop]; omega, h5⟩
    · split at h
      · rename_i hcond
        obtain ⟨h1, h2, h3, h4, h5⟩ := tagMk_bounds Γ t s 0
          (by simpa using hcond)
        injection h with h
        subst h
        exact ⟨h1, h3, by omega, h4, by simp [TagM.stop]; omega, h5⟩
      · exact Option.noConfusion h

theorem fileTryAt_spec (t : List Char) (s : Nat) (m : FileM)
    (h : fileTryAt t s = some m) :
    m.start = s ∧ s + 1 ≤ m.stop ∧ m.stop ≤ t.length ∧
      m.stop = m.nameStart + m.nameLen + 4 ∧ s + 8 ≤ m.locStart ∧
      1 ≤ m.locLen ∧ m.locStart + m.locLen + 2 = m.nameStart ∧
      1 ≤ m.nameLen := by
  unfold fileTryAt at h
  dsimp only at h
  split at h; rotate_left
  · exact Option.noConfusion h
  split at h; rotate_left
  · exact Option.noConfusion h
  rename_i hsp
  rw [Bool.and_eq_true] at hsp
  split at h; rotate_left
  · exact Option.noConfusion h
  split at h; rotate_left
  · exact Option.noConfusion h
  split at h; rotate_left
  · exact Option.noConfusion h
  rename_i hloc
  split at h; rotate_left
  · exact Option.noConfusion h
  split at h; rotate_left
  · exact Option.noConfusion h
  split at h; rotate_left
  · exact Option.noConfusion h
  rename_i hname
  rw [Bool.and_eq_true] at hname
  have hlit := litAt_cons_le_length t _ _ _ hname.2
  simp only [List.length_cons, List.length_nil] at hlit
  have hn := of_decide_eq_true hname.1
  injection h with h
  subst h
  dsimp only
  exact ⟨by trivial, by omega, by omega, by trivial, by omega, hloc,
    by trivial, hn⟩

theorem lastIdxOf?_spec (p : Char → Bool) (l : List Char) (j : Nat)
    (h : lastIdxOf? p l = some j) :
    j < l.length ∧ ∃ c, l[j]? = some c ∧ p c = true := by
  induction l generalizing j with
  | nil => simp [lastIdxOf?] at h
  | cons c cs ih =>
    simp only [lastIdxOf?] at h
    cases hr : lastIdxOf? p cs with
    | some i =>
      rw [hr] at h
      have h' : some (i + 1) = some j := h
      injection h' with h'
      subst h'
      obtain ⟨h1, d, hd, hpd⟩ := ih i hr
      exact ⟨by simp; omega, d, by simpa using hd, hpd⟩
    | none =>
      rw [hr] at h
      have h' : (if p c then some 0 else none : Option Nat) = some j := h
      split at h'
      · injection h' with h'
        subst h'
        exact ⟨by simp, c, by simp, by assumption⟩
      · exact Option.noConfusion h'

theorem imageTryAt_spec (t : List Char) (s : Nat) (m : ImageM)
    (h : imageTryAt t s = some m) :
    m.start = s ∧ s + 1 ≤ m.stop ∧ m.stop ≤ t.length ∧
      m.locStart = s + 4 + m.descLen ∧ 1 ≤ m.locLen ∧
      m.stop = m.locStart + m.locLen + 1 := by
  unfold imageTryAt at h
  dsimp only at h
  split at h; rotate_left
  · exact Option.noConfusion h
  split at h; rotate_left
  · exact Option.noConfusion h
  rename_i hrun
  split at h; rotate_left
  · exact Option.noConfusion h
  rename_i j hj
  obtain ⟨hjlt, c, hc, hpc⟩ := lastIdxOf?_spec _ _ _ hj
  rw [slice_getElem?] at hc
  split at hc; rotate_left
  · exact Option.noConfusion hc
  have hcl := getElem?_some_lt hc
  injection h with h
  subst h
  dsimp only
  exact ⟨by trivial, by omega, by omega, by trivial, by omega, by trivial⟩

/-! ### Invariants of `findAllAux`: matches are in bounds, nonempty, and
pairwise disjoint in ascending order -/

theorem findAllAux_invariant (next : Nat → Option (Nat × Nat)) (L : Nat)
    (hnext : ∀ pos s e, next pos = some (s, e) → pos ≤ s ∧ s < e ∧ e ≤ L) :
    ∀ fuel pos,
      (∀ se ∈ findAllAux next fuel pos,
        pos ≤ se.1 ∧ se.1 < se.2 ∧ se.2 ≤ L) ∧
      (findAllAux next fuel pos).Pairwise fun a b => a.2 ≤ b.1 := by
  intro fuel
  induction fuel with
  | zero => intro pos; simp [findAllAux]
  | succ n ih =>
    intro pos
    simp only [findAllAux]
    cases hn : next pos with
    | none => simp
    | some se =>
      obtain ⟨h1, h2, h3⟩ := hnext pos se.1 se.2 (by rw [hn])
      obtain ⟨ihmem, ihpw⟩ := ih (max se.2 (pos + 1))
      constructor
      · intro x hx
        rcases List.mem_cons.mp hx with rfl | hx
        · exact ⟨h1, h2, h3⟩
        · have := ihmem x hx
          exact ⟨by omega, this.2⟩
      · refine List.Pairwise.cons ?_ ihpw
        intro x hx
        have := ihmem x hx
        omega

theorem tagFindFrom_spec (Γ : RuneClass) (t : List Char) (pos : Nat)
    (m : TagM) (h : tagFindFrom Γ t pos = some m) :
    pos ≤ m.start ∧ tagTryAt Γ t m.start = some m := by
  obtain ⟨a, ha, hm⟩ := List.exists_of_findSome?_eq_some h
  have hstart := (tagTryAt_spec Γ t a m hm).1
  rw [List.mem_range'] at ha
  obtain ⟨i, _, rfl⟩ := ha
  exact ⟨by omega, hstart ▸ hm⟩

theorem fileFindFrom_spec (t : List Char) (pos : Nat) (m : FileM)
    (h : fileFindFrom t pos = some m) :
    pos ≤ m.start ∧ fileTryAt t m.start = some m := by
  obtain ⟨a, ha, hm⟩ := List.exists_of_findSome?_eq_some h
  have hstart := (fileTryAt_spec t a m hm).1
  rw [List.mem_range'] at ha
  obtain ⟨i, _, rfl⟩ := ha
  exact ⟨by omega, hstart ▸ hm⟩

theorem imageFindFrom_spec (t : List Char) (pos : Nat) (m : ImageM)
    (h : imageFindFrom t pos = some m) :
    pos ≤ m.start ∧ imageTryAt t m.start = some m := by
  obtain ⟨a, ha, hm⟩ := List.exists_of_findSome?_eq_some h
  have hstart := (imageTryAt_spec t a m hm).1
  rw [List.mem_range'] at ha
  obtain ⟨i, _, rfl⟩ := ha
  exact ⟨by omega, hstart ▸ hm⟩

theorem tagFindAll_invariant (Γ : RuneClass) (t : List Char) :
    (∀ se ∈ tagFindAll Γ t, se.1 < se.2 ∧ se.2 ≤ t.length) ∧
      (tagFindAll Γ t).Pairwise fun a b => a.2 ≤ b.1 := by
  have := findAllAux_invariant
    (fun pos => (tagFindFrom Γ t pos).map fun m => (m.start, m.stop))
    t.length ?_ (t.length + 1) 0
  · exact ⟨fun se hse => (this.1 se hse).2, this.2⟩
  · intro pos s e hse
    simp only [Option.map_eq_some'] at hse
    obtain ⟨m, hm, hme⟩ := hse
    obtain ⟨hpos, htry⟩ := tagFindFrom_spec Γ t pos m hm
    obtain ⟨_, _, _, _, h5, h6⟩ := tagTryAt_spec Γ t m.start m htry
    injection hme with hs he
    subst hs; subst he
    exact ⟨hpos, by omega, h6⟩

theorem fileFindAll_invariant (t : List Char) :
    (∀ se ∈ fileFindAll t, se.1 < se.2 ∧ se.2 ≤ t.length) ∧
      (fileFindAll t).Pairwise fun a b => a.2 ≤ b.1 := by
  have := findAllAux_invariant
    (fun pos => (fileFindFrom t pos).map fun m => (m.start, m.stop))
    t.length ?_ (t.length + 1) 0
  · exact ⟨fun se hse => (this.1 se hse).2, this.2⟩
  · intro pos s e hse
    simp only [Option.map_eq_some'] at hse
    obtain ⟨m, hm, hme⟩ := hse
    obtain ⟨hpos, htry⟩ := fileFindFrom_spec t pos m hm
    obtain ⟨_, h2, h3, _⟩ := fileTryAt_spec t m.start m htry
    injection hme with hs he
    subst hs; subst he
    exact ⟨hpos, by omega, h3⟩

/-! ### Self-parsing: the builders re-find the match inside the extracted
substring -/

theorem runLen_all (p : Char → Bool) (l : List Char)
    (h : ∀ c ∈ l, p c = true) : runLen p l = l.length := by
  have := runLen_append p l [] h
  simpa using this

theorem slice_length (t : List Char) (a b : Nat) :
    (slice t a b).length = min b t.length - a := by
  simp [slice]

theorem slice_slice (t : List Char) (s e a b : Nat) (hb : s + b ≤ e) :
    slice (slice t s e) a b = slice t (s + a) (s + b) := by
  apply List.ext_getElem?
  intro i
  rw [slice_getElem? (slice t s e) a b i, slice_getElem? t (s + a) (s + b) i,
    slice_getElem? t s e (a + i)]
  by_cases hi : a + i < b
  · rw [if_pos hi, if_pos (by omega), if_pos (by omega)]
    congr 1
    omega
  · rw [if_neg hi, if_neg (by omega)]

theorem slice_drop (t : List Char) (a b d : Nat) :
    (slice t a b).drop d = slice t (a + d) b := by
  simp [slice, List.drop_drop]

theorem mem_of_all_getElem? (p : Char → Bool) (l : List Char)
    (h : ∀ i < l.length, ∃ c, l[i]? = some c ∧ p c = true) :
    ∀ c ∈ l, p c = true := by
  intro c hc
  obtain ⟨i, hi, rfl⟩ := List.mem_iff_getElem.mp hc
  obtain ⟨d, hd, hpd⟩ := h i hi
  rw [List.getElem?_eq_some.mpr ⟨hi, rfl⟩] at hd
  injection hd with hd
  rw [hd]
  exact hpd

theorem findSome?_range'_zero {β : Type} (f : Nat → Option β) (n : Nat)
    (b : β) (hn : 0 < n) (h : f 0 = some b) :
    (List.range' 0 n).findSome? f = some b := by
  obtain ⟨k, rfl⟩ := Nat.exists_eq_succ_of_ne_zero (by omega : n ≠ 0)
  rw [List.range'_succ, List.findSome?_cons, h]

theorem tag_selfparse (Γ : RuneClass) (hL : Γ.letter '#' = false)
    (t : List Char) (s : Nat) (m : TagM) (h : tagTryAt Γ t s = some m) :
    tagTryAt Γ (slice t s m.stop) 0 =
      some ⟨0, m.g1len, m.nameLen, m.g3len⟩ := by
  obtain ⟨hstart, hname1, hg1le, hg3le, hs2, hlen⟩ := tagTryAt_spec Γ t s m h
  -- extract the branch facts from the original match
  have hbranch : tagCoreAt Γ t (s + m.g1len) = true ∧
      m.nameLen = tagNameLenAt Γ t (s + m.g1len) ∧
      m.g3len = tagG3At t (s + m.g1len + 1 + m.nameLen) ∧
      (m.g1len = 0 ∨ (m.g1len = 1 ∧ ∃ c, t[s]? = some c ∧ c ≠ '\n')) := by
    unfold tagTryAt at h
    split at h
    · rename_i hcond
      rw [Bool.and_eq_true, beq_iff_eq] at hcond
      have hs0 : s = 0 := by simpa using hcond.1
      subst hs0
      injection h with h
      subst h
      exact ⟨by simpa using hcond.2, rfl, rfl, Or.inl rfl⟩
    · split at h
      · rename_i hcond
        rw [Bool.and_eq_true] at hcond
        injection h with h
        subst h
        refine ⟨hcond.2, rfl, rfl, Or.inr ⟨rfl, ?_⟩⟩
        rcases hc : t[s]? with _ | c
        · rw [hc] at hcond; exact absurd hcond.1 (by simp)
        · rw [hc] at hcond
          exact ⟨c, rfl, by simpa using hcond.1⟩
      · split at h
        · rename_i hcond
          injection h with h
          subst h
          exact ⟨by simpa using hcond, rfl, rfl, Or.inl rfl⟩
        · exact Option.noConfusion h
  obtain ⟨hcore, hnl, hg3, hbr⟩ := hbranch
  obtain ⟨hhash, cletter, hcl, hclet⟩ := tagCoreAt_spec Γ t _ hcore
  -- positions strictly before the stop transport into the slice
  have hsub : ∀ i, s + i < m.stop →
      (slice t s m.stop)[i]? = t[s + i]? := by
    intro i hi
    rw [slice_getElem?, if_pos (by omega)]
  have hstop : m.stop = s + m.g1len + 1 + m.nameLen + m.g3len := by
    rw [← hstart]; rfl
  -- the core transports
  have hcore' : tagCoreAt Γ (slice t s m.stop) m.g1len = true := by
    unfold tagCoreAt
    rw [hsub m.g1len (by omega), hsub (m.g1len + 1) (by omega)]
    rw [show s + (m.g1len + 1) = s + m.g1len + 1 by omega]
    unfold tagCoreAt at hcore
    exact hcore
  -- the name length transports
  have hrun : runLen (inTagStar Γ) (t.drop (s + m.g1len + 2)) =
      m.nameLen - 1 := by
    rw [hnl]; unfold tagNameLenAt; omega
  have hname' : tagNameLenAt Γ (slice t s m.stop) m.g1len = m.nameLen := by
    unfold tagNameLenAt
    rw [slice_drop]
    rcases Nat.eq_zero_or_pos m.g3len with hg30 | hg31
    · -- group 3 empty: the slice ends exactly at the name end
      have he : s + (m.g1len + 2) + (m.nameLen - 1) = m.stop := by omega
      have hall : ∀ c ∈ slice t (s + (m.g1len + 2)) m.stop,
          inTagStar Γ c = true := by
        apply mem_of_all_getElem?
        intro i hi
        rw [slice_length] at hi
        rw [slice_getElem?, if_pos (by omega)]
        have hi' : i < m.nameLen - 1 := by omega
        obtain ⟨c, hc, hpc⟩ := runLen_lt_getElem? (inTagStar Γ)
          (t.drop (s + m.g1len + 2)) i (by omega)
        rw [List.getElem?_drop] at hc
        refine ⟨c, ?_, hpc⟩
        rw [show s + (m.g1len + 2) + i = s + m.g1len + 2 + i by omega]
        exact hc
      rw [runLen_all _ _ hall, slice_length]
      omega
    · -- group 3 takes one rune: the stop of the name run is inside
      have hg3eq : m.g3len = 1 := by omega
      have hagree : ∀ i ≤ runLen (inTagStar Γ) (t.drop (s + m.g1len + 2)),
          (t.drop (s + m.g1len + 2))[i]? =
            (slice t (s + (m.g1len + 2)) m.stop)[i]? := by
        intro i hi
        rw [hrun] at hi
        rw [List.getElem?_drop, slice_getElem?, if_pos (by omega)]
        congr 1
      rw [runLen_eq_of_agree (inTagStar Γ) _ _ hagree, hrun]
      omega
  -- group 3 transports
  have hg3' : tagG3At (slice t s m.stop) (m.g1len + 1 + m.nameLen) =
      m.g3len := by
    unfold tagG3At
    rcases Nat.eq_zero_or_pos m.g3len with hg30 | hg31
    · have hnone : (slice t s m.stop)[m.g1len + 1 + m.nameLen]? = none :=
        List.getElem?_eq_none (by rw [slice_length]; omega)
      rw [hnone]
      show 0 = m.g3len
      omega
    · have hg3eq : m.g3len = 1 := by omega
      have hc : ∃ c, t[s + m.g1len + 1 + m.nameLen]? = some c ∧ c ≠ '\n' := by
        rw [hg3eq] at hg3
        unfold tagG3At at hg3
        rcases hx : t[s + m.g1len + 1 + m.nameLen]? with _ | c
        · rw [hx] at hg3
          have h10 : (1 : Nat) = 0 := hg3
          exact absurd h10 (by omega)
        · rw [hx] at hg3
          have h1 : (1 : Nat) = if c = '\n' then 0 else 1 := hg3
          refine ⟨c, rfl, ?_⟩
          intro hcon
          rw [if_pos hcon] at h1
          exact absurd h1 (by omega)
      obtain ⟨c, hc, hcn⟩ := hc
      rw [hsub (m.g1len + 1 + m.nameLen) (by omega)]
      rw [show s + (m.g1len + 1 + m.nameLen) = s + m.g1len + 1 + m.nameLen
        by omega, hc]
      show (if c = '\n' then 0 else 1) = m.g3len
      rw [if_neg hcn]
      omega
  -- now assemble the match on the slice, by branch
  have htagmk : tagMk Γ (slice t s m.stop) 0 m.g1len =
      ⟨0, m.g1len, m.nameLen, m.g3len⟩ := by
    unfold tagMk
    simp only [Nat.zero_add]
    rw [hname', hg3']
  rcases hbr with hg10 | ⟨hg11, c0, hc0, hc0n⟩
  · -- no character was consumed before the marker: branch `^` fires at 0
    unfold tagTryAt
    rw [if_pos]
    · rw [hg10] at htagmk
      rw [hg10, htagmk]
    · rw [Bool.and_eq_true]
      refine ⟨by simp, ?_⟩
      rw [hg10] at hcore'
      exact hcore'
  · -- one character was consumed: branch `^` fails, branch `.?` fires
    unfold tagTryAt
    rw [if_neg, if_pos]
    · rw [hg11] at htagmk
      rw [hg11, htagmk]
    · rw [Bool.and_eq_true]
      constructor
      · rw [hsub 0 (by omega)]
        rw [show s + 0 = s by omega, hc0]
        show decide (c0 ≠ '\n') = true
        exact decide_eq_true hc0n
      · rw [show (0 : Nat) + 1 = m.g1len by omega]
        exact hcore'
    · -- the slice starts with the consumed character, not with a valid core
      rw [Bool.and_eq_true]
      rintro ⟨-, hcon⟩
      obtain ⟨h0, d, hd, hdlet⟩ := tagCoreAt_spec Γ _ 0 hcon
      rw [hsub 0 (by omega), show s + 0 = s by omega, hc0] at h0
      injection h0 with h0
      subst h0
      rw [hsub 1 (by omega), show s + 1 = s + m.g1len by omega,
        hhash] at hd
      injection hd with hd
      subst hd
      rw [hL] at hdlet
      exact Bool.noConfusion hdlet

theorem fileTryAt_build (t : List Char) (s k locLen nameLen : Nat)
    (q1 q2 : Char)
    (h1 : litAt t s ['<', 'a'] = true)
    (hk : runLen (· == ' ') (t.drop (s + 2)) = k) (hk1 : 1 ≤ k)
    (h2 : litAt t (s + 2 + k) ['h', 'r', 'e', 'f', '='] = true)
    (hq1 : t[s + 7 + k]? = some q1) (hq1q : isQuote q1 = true)
    (hll : runLen notQuote (t.drop (s + 8 + k)) = locLen) (h1l : 1 ≤ locLen)
    (hq2 : t[s + 8 + k + locLen]? = some q2) (hq2q : isQuote q2 = true)
    (hgt : t[s + 8 + k + locLen + 1]? = some '>')
    (hnl : runLen (fun x => decide (x ≠ '<'))
      (t.drop (s + 8 + k + locLen + 2)) = nameLen) (h1n : 1 ≤ nameLen)
    (h3 : litAt t (s + 8 + k + locLen + 2 + nameLen)
      ['<', '/', 'a', '>'] = true) :
    fileTryAt t s = some ⟨s, s + 8 + k, locLen, s + 8 + k + locLen + 2,
      nameLen, s + 8 + k + locLen + 2 + nameLen + 4⟩ := by
  unfold fileTryAt
  rw [if_pos h1]
  dsimp only
  rw [hk, if_pos (by rw [Bool.and_eq_true]; exact ⟨decide_eq_true hk1, h2⟩)]
  rw [hq1]
  dsimp only
  rw [if_pos hq1q, hll, if_pos h1l, hq2]
  dsimp only
  rw [if_pos (by rw [Bool.and_eq_true]; refine ⟨hq2q, ?_⟩; rw [hgt]; simp),
    hnl]
  rw [if_pos (by rw [Bool.and_eq_true]; exact ⟨decide_eq_true h1n, h3⟩)]

theorem fileTryAt_destruct (t : List Char) (s : Nat) (m : FileM)
    (h : fileTryAt t s = some m) :
    ∃ k q1 q2,
      litAt t s ['<', 'a'] = true ∧
      runLen (· == ' ') (t.drop (s + 2)) = k ∧ 1 ≤ k ∧
      litAt t (s + 2 + k) ['h', 'r', 'e', 'f', '='] = true ∧
      t[s + 7 + k]? = some q1 ∧ isQuote q1 = true ∧
      runLen notQuote (t.drop (s + 8 + k)) = m.locLen ∧ 1 ≤ m.locLen ∧
      t[s + 8 + k + m.locLen]? = some q2 ∧ isQuote q2 = true ∧
      t[s + 8 + k + m.locLen + 1]? = some '>' ∧
      runLen (fun x => decide (x ≠ '<'))
        (t.drop (s + 8 + k + m.locLen + 2)) = m.nameLen ∧ 1 ≤ m.nameLen ∧
      litAt t (s + 8 + k + m.locLen + 2 + m.nameLen)
        ['<', '/', 'a', '>'] = true ∧
      m = ⟨s, s + 8 + k, m.locLen, s + 8 + k + m.locLen + 2, m.nameLen,
        s + 8 + k + m.locLen + 2 + m.nameLen + 4⟩ := by
  unfold fileTryAt at h
  dsimp only at h
  split at h; rotate_left
  · exact Option.noConfusion h
  rename_i h1
  split at h; rotate_left
  · exact Option.noConfusion h
  rename_i hsp
  rw [Bool.and_eq_true] at hsp
  split at h; rotate_left
  · exact Option.noConfusion h
  rename_i hq1x q1 hq1
  split at h; rotate_left
  · exact Option.noConfusion h
  rename_i hq1q
  split at h; rotate_left
  · exact Option.noConfusion h
  rename_i h1l
  split at h; rotate_left
  · exact Option.noConfusion h
  rename_i hq2x q2 hq2
  split at h; rotate_left
  · exact Option.noConfusion h
  rename_i hq2g
  rw [Bool.and_eq_true] at hq2g
  split at h; rotate_left
  · exact Option.noConfusion h
  rename_i hname
  rw [Bool.and_eq_true] at hname
  injection h with h
  subst h
  refine ⟨runLen (· == ' ') (t.drop (s + 2)), q1, q2, h1, rfl,
    of_decide_eq_true hsp.1, hsp.2, hq1, hq1q, rfl, h1l, hq2, hq2g.1,
    ?_, rfl, of_decide_eq_true hname.1, hname.2, rfl⟩
  have := hq2g.2
  rw [beq_iff_eq] at this
  exact this

theorem file_selfparse (t : List Char) (s : Nat) (m : FileM)
    (h : fileTryAt t s = some m) :
    fileTryAt (slice t s m.stop) 0 = some ⟨0, m.locStart - s, m.locLen,
      m.nameStart - s, m.nameLen, m.stop - s⟩ := by
  obtain ⟨hst, hs1, hstople, hstopeq, hls, h1l, hlnm, h1n⟩ :=
    fileTryAt_spec t s m h
  obtain ⟨k, q1, q2, h1, hk, hk1, h2, hq1, hq1q, hll, -, hq2, hq2q, hgt,
    hnl, -, h3, hm⟩ := fileTryAt_destruct t s m h
  have hfields : m.locStart = s + 8 + k ∧ m.nameStart = s + 8 + k +
      m.locLen + 2 ∧ m.stop = s + 8 + k + m.locLen + 2 + m.nameLen + 4 := by
    constructor
    · conv_lhs => rw [hm]
    constructor
    · conv_lhs => rw [hm]
    · conv_lhs => rw [hm]
  obtain ⟨hlsv, hnsv, hstv⟩ := hfields
  have hsub : ∀ i, s + i < m.stop → (slice t s m.stop)[i]? = t[s + i]? := by
    intro i hi
    rw [slice_getElem?, if_pos (by omega)]
  have hlit : ∀ (lit : List Char) (a : Nat), s + a + lit.length ≤ m.stop →
      litAt t (s + a) lit = true → litAt (slice t s m.stop) a lit = true := by
    intro lit a hle hl
    rw [litAt_congr lit (slice t s m.stop) t a (s + a) fun j hj => by
      rw [hsub (a + j) (by omega)]
      congr 1
      omega]
    exact hl
  have hrunt : ∀ (p : Char → Bool) (a v : Nat),
      runLen p (t.drop (s + a)) = v → s + a + v < m.stop →
      runLen p ((slice t s m.stop).drop a) = v := by
    intro p a v hv hlt
    rw [slice_drop]
    rw [runLen_eq_of_agree p (t.drop (s + a)) (slice t (s + a) m.stop)
      fun i hi => by
        rw [hv] at hi
        rw [List.getElem?_drop, slice_getElem?, if_pos (by omega)], hv]
  have e1 : litAt (slice t s m.stop) 0 ['<', 'a'] = true := by
    have := hlit ['<', 'a'] 0 (by simp; omega) (by
      rw [show s + 0 = s by omega]; exact h1)
    exact this
  have e2 : runLen (· == ' ') ((slice t s m.stop).drop 2) = k := by
    exact hrunt _ 2 k hk (by omega)
  have e3 : litAt (slice t s m.stop) (2 + k) ['h', 'r', 'e', 'f', '='] =
      true := by
    have := hlit ['h', 'r', 'e', 'f', '='] (2 + k) (by simp; omega) (by
      rw [show s + (2 + k) = s + 2 + k by omega]; exact h2)
    exact this
  have e4 : (slice t s m.stop)[7 + k]? = some q1 := by
    rw [hsub (7 + k) (by omega), show s + (7 + k) = s + 7 + k by omega]
    exact hq1
  have e5 : runLen notQuote ((slice t s m.stop).drop (8 + k)) = m.locLen :=
    hrunt _ (8 + k) m.locLen (by
      rw [show s + (8 + k) = s + 8 + k by omega]; exact hll) (by omega)
  have e6 : (slice t s m.stop)[8 + k + m.locLen]? = some q2 := by
    rw [hsub (8 + k + m.locLen) (by omega),
      show s + (8 + k + m.locLen) = s + 8 + k + m.locLen by omega]
    exact hq2
  have e7 : (slice t s m.stop)[8 + k + m.locLen + 1]? = some '>' := by
    rw [hsub (8 + k + m.locLen + 1) (by omega),
      show s + (8 + k + m.locLen + 1) = s + 8 + k + m.locLen + 1 by omega]
    exact hgt
  have e8 : runLen (fun x => decide (x ≠ '<'))
      ((slice t s m.stop).drop (8 + k + m.locLen + 2)) = m.nameLen :=
    hrunt _ (8 + k + m.locLen + 2) m.nameLen (by
      rw [show s + (8 + k + m.locLen + 2) = s + 8 + k + m.locLen + 2
        by omega]
      exact hnl) (by omega)
  have e9 : litAt (slice t s m.stop) (8 + k + m.locLen + 2 + m.nameLen)
      ['<', '/', 'a', '>'] = true := by
    have := hlit ['<', '/', 'a', '>'] (8 + k + m.locLen + 2 + m.nameLen)
      (by simp; omega) (by
        rw [show s + (8 + k + m.locLen + 2 + m.nameLen) =
          s + 8 + k + m.locLen + 2 + m.nameLen by omega]
        exact h3)
    exact this
  have hbuild := fileTryAt_build (slice t s m.stop) 0 k m.locLen m.nameLen
    q1 q2 (by simpa using e1) (by simpa using e2) hk1 (by simpa using e3)
    (by simpa using e4) hq1q (by simpa using e5) h1l (by simpa using e6)
    hq2q (by simpa using e7) (by simpa using e8) h1n (by simpa using e9)
  rw [hbuild]
  congr 1
  simp only [Nat.zero_add]
  refine FileM.mk.injEq _ _ _ _ _ _ _ _ _ _ _ _ |>.mpr ?_
  refine ⟨rfl, by omega, rfl, by omega, rfl, by omega⟩

theorem litAt_slice_of (lit t : List Char) (s stop a : Nat)
    (hle : s + a + lit.length ≤ stop)
    (hl : litAt t (s + a) lit = true) :
    litAt (slice t s stop) a lit = true := by
  rw [litAt_congr lit (slice t s stop) t a (s + a) fun j hj => by
    rw [slice_getElem?, if_pos (by omega)]
    congr 1
    omega]
  exact hl

theorem runLen_slice_of (p : Char → Bool) (t : List Char) (s stop a v : Nat)
    (hv : runLen p (t.drop (s + a)) = v) (hlt : s + a + v < stop) :
    runLen p ((slice t s stop).drop a) = v := by
  rw [slice_drop]
  rw [runLen_eq_of_agree p (t.drop (s + a)) (slice t (s + a) stop)
    fun i hi => by
      rw [hv] at hi
      rw [List.getElem?_drop, slice_getElem?, if_pos (by omega)], hv]

theorem lastIdxOf?_of_last (p : Char → Bool) (l : List Char) (c : Char)
    (hne : l ≠ []) (hc : l[l.length - 1]? = some c) (hpc : p c = true) :
    lastIdxOf? p l = some (l.length - 1) := by
  induction l with
  | nil => exact absurd rfl hne
  | cons d ds ih =>
    rcases List.eq_nil_or_concat ds with hds | _
    · subst hds
      have hc' : d = c := by simpa using hc
      subst hc'
      simp [lastIdxOf?, hpc]
    · have hds : ds ≠ [] := by
        rename_i hcon
        obtain ⟨l', a, rfl⟩ := hcon
        simp
      have hlen : 1 ≤ ds.length := by
        cases ds with
        | nil => exact absurd rfl hds
        | cons _ _ => simp
      have hc' : ds[ds.length - 1]? = some c := by
        have : (d :: ds)[(d :: ds).length - 1]? = ds[ds.length - 1]? := by
          rw [show (d :: ds).length - 1 = (ds.length - 1) + 1 by
            simp; omega]
          simp
        rw [this] at hc
        exact hc
      have := ih hds hc'
      simp only [lastIdxOf?, this]
      rw [show (d :: ds).length - 1 = ds.length - 1 + 1 by simp; omega]

theorem imageTryAt_build (t : List Char) (s descLen run j : Nat)
    (h1 : litAt t s ['!', '['] = true)
    (hd : runLen (· ≠ ']') (t.drop (s + 2)) = descLen)
    (h2 : litAt t (s + 2 + descLen) [']', '('] = true)
    (hrun : runLen (· ≠ '(') (t.drop (s + 4 + descLen)) = run)
    (hj : lastIdxOf? (· = ')')
      (slice t (s + 4 + descLen + 1) (s + 4 + descLen + run)) = some j) :
    imageTryAt t s = some ⟨s, descLen, s + 4 + descLen, j + 1,
      s + 4 + descLen + j + 2⟩ := by
  unfold imageTryAt
  rw [if_pos h1]
  dsimp only
  rw [hd, if_pos h2, hrun, hj]

theorem imageTryAt_destruct (t : List Char) (s : Nat) (m : ImageM)
    (h : imageTryAt t s = some m) :
    ∃ run j,
      litAt t s ['!', '['] = true ∧
      runLen (· ≠ ']') (t.drop (s + 2)) = m.descLen ∧
      litAt t (s + 2 + m.descLen) [']', '('] = true ∧
      runLen (· ≠ '(') (t.drop (s + 4 + m.descLen)) = run ∧
      lastIdxOf? (· = ')')
        (slice t (s + 4 + m.descLen + 1) (s + 4 + m.descLen + run)) =
        some j ∧
      m = ⟨s, m.descLen, s + 4 + m.descLen, j + 1,
        s + 4 + m.descLen + j + 2⟩ := by
  unfold imageTryAt at h
  dsimp only at h
  split at h; rotate_left
  · exact Option.noConfusion h
  rename_i h1
  split at h; rotate_left
  · exact Option.noConfusion h
  rename_i h2
  split at h; rotate_left
  · exact Option.noConfusion h
  rename_i hjx j hj
  injection h with h
  subst h
  exact ⟨runLen (· ≠ '(')
    (t.drop (s + 4 + runLen (· ≠ ']') (t.drop (s + 2)))), j, h1, rfl, h2,
    rfl, hj, rfl⟩

theorem image_selfparse (t : List Char) (s : Nat) (m : ImageM)
    (h : imageTryAt t s = some m) :
    imageTryAt (slice t s m.stop) 0 =
      some ⟨0, m.descLen, m.locStart - s, m.locLen, m.stop - s⟩ := by
  obtain ⟨hst, hs1, hstople, hlseq, h1l, hstopeq⟩ := imageTryAt_spec t s m h
  obtain ⟨run, j, h1, hd, h2, hrun, hj, hm⟩ := imageTryAt_destruct t s m h
  have hfields : m.locLen = j + 1 ∧ m.stop = s + 4 + m.descLen + j + 2 := by
    constructor
    · conv_lhs => rw [hm]
    · conv_lhs => rw [hm]
  obtain ⟨hll, hstv⟩ := hfields
  obtain ⟨hjlt, c, hc, hpc⟩ := lastIdxOf?_spec _ _ _ hj
  rw [slice_length] at hjlt
  rw [slice_getElem?] at hc
  split at hc; rotate_left
  · exact Option.noConfusion hc
  rename_i hcw
  have hclen := getElem?_some_lt hc
  -- the description and the two delimiters transport into the slice
  have e1 : litAt (slice t s m.stop) 0 ['!', '['] = true := by
    refine litAt_slice_of ['!', '['] t s m.stop 0 (by simp; omega) ?_
    rw [show s + 0 = s by omega]
    exact h1
  have e2 : runLen (· ≠ ']') ((slice t s m.stop).drop 2) = m.descLen :=
    runLen_slice_of _ t s m.stop 2 m.descLen hd (by omega)
  have e3 : litAt (slice t s m.stop) (2 + m.descLen) [']', '('] = true := by
    refine litAt_slice_of [']', '('] t s m.stop (2 + m.descLen)
      (by simp; omega) ?_
    rw [show s + (2 + m.descLen) = s + 2 + m.descLen by omega]
    exact h2
  -- inside the slice the maximal paren-free run stops at the final rune
  have e4 : runLen (· ≠ '(') ((slice t s m.stop).drop (4 + m.descLen)) =
      j + 2 := by
    rw [slice_drop]
    have hlen : (slice t (s + (4 + m.descLen)) m.stop).length = j + 2 := by
      rw [slice_length]
      omega
    rw [runLen_all, hlen]
    apply mem_of_all_getElem?
    intro i hi
    rw [hlen] at hi
    rw [slice_getElem?, if_pos (by omega)]
    obtain ⟨d, hdi, hpd⟩ := runLen_lt_getElem? (· ≠ '(')
      (t.drop (s + 4 + m.descLen)) i (by rw [hrun]; omega)
    rw [List.getElem?_drop] at hdi
    refine ⟨d, ?_, hpd⟩
    rw [show s + (4 + m.descLen) + i = s + 4 + m.descLen + i by omega]
    exact hdi
  -- the last closing paren of the window is the final rune of the slice
  have e5 : lastIdxOf? (· = ')')
      (slice (slice t s m.stop) (4 + m.descLen + 1)
        (4 + m.descLen + (j + 2))) = some j := by
    rw [slice_slice t s m.stop _ _ (by omega)]
    have hwin : slice t (s + (4 + m.descLen + 1))
        (s + (4 + m.descLen + (j + 2))) =
        slice t (s + 4 + m.descLen + 1) (s + 4 + m.descLen + j + 2) := by
      congr 1 <;> omega
    rw [hwin]
    have hlen : (slice t (s + 4 + m.descLen + 1)
        (s + 4 + m.descLen + j + 2)).length = j + 1 := by
      rw [slice_length]
      omega
    have hne : slice t (s + 4 + m.descLen + 1) (s + 4 + m.descLen + j + 2) ≠
        [] := by
      intro hcon
      rw [hcon] at hlen
      simp at hlen
    have hc2 : (slice t (s + 4 + m.descLen + 1)
        (s + 4 + m.descLen + j + 2))[(slice t (s + 4 + m.descLen + 1)
        (s + 4 + m.descLen + j + 2)).length - 1]? = some c := by
      rw [hlen, slice_getElem?, if_pos (by omega)]
      rw [show s + 4 + m.descLen + 1 + (j + 1 - 1) =
        s + 4 + m.descLen + 1 + j by omega]
      exact hc
    have hlast := lastIdxOf?_of_last (fun x => decide (x = ')')) _ c hne
      hc2 hpc
    rw [hlen] at hlast
    simpa using hlast
  have hbuild := imageTryAt_build (slice t s m.stop) 0 m.descLen (j + 2) j
    (by simpa using e1) (by simpa using e2) (by simpa using e3)
    (by simpa using e4) (by simpa using e5)
  rw [hbuild]
  congr 1
  simp only [Nat.zero_add]
  refine ImageM.mk.injEq _ _ _ _ _ _ _ _ _ _ |>.mpr ?_
  refine ⟨rfl, rfl, by omega, by omega, by omega⟩

theorem imageFindAll_invariant (t : List Char) :
    (∀ se ∈ imageFindAll t, se.1 < se.2 ∧ se.2 ≤ t.length) ∧
      (imageFindAll t).Pairwise fun a b => a.2 ≤ b.1 := by
  have := findAllAux_invariant
    (fun pos => (imageFindFrom t pos).map fun m => (m.start, m.stop))
    t.length ?_ (t.length + 1) 0
  · exact ⟨fun se hse => (this.1 se hse).2, this.2⟩
  · intro pos s e hse
    simp only [Option.map_eq_some'] at hse
    obtain ⟨m, hm, hme⟩ := hse
    obtain ⟨hpos, htry⟩ := imageFindFrom_spec t pos m hm
    obtain ⟨_, h2, h3, _⟩ := imageTryAt_spec t m.start m htry
    injection hme with hs he
    subst hs; subst he
    exact ⟨hpos, by omega, h3⟩

theorem findAllAux_mem (next : Nat → Option (Nat × Nat)) (fuel pos : Nat)
    (se : Nat × Nat) (h : se ∈ findAllAux next fuel pos) :
    ∃ p, next p = some se := by
  induction fuel generalizing pos with
  | zero => simp [findAllAux] at h
  | succ n ih =>
    simp only [findAllAux] at h
    cases hn : next pos with
    | none => rw [hn] at h; simp at h
    | some se' =>
      rw [hn] at h
      rcases List.mem_cons.mp h with rfl | h
      · exact ⟨pos, hn⟩
      · exact ih _ h

theorem tagFindAll_mem (Γ : RuneClass) (t : List Char) (se : Nat × Nat)
    (h : se ∈ tagFindAll Γ t) :
    ∃ m : TagM, tagTryAt Γ t se.1 = some m ∧ m.start = se.1 ∧
      m.stop = se.2 := by
  obtain ⟨p, hp⟩ := findAllAux_mem _ _ _ se h
  simp only [Option.map_eq_some'] at hp
  obtain ⟨m, hm, hse⟩ := hp
  obtain ⟨-, htry⟩ := tagFindFrom_spec Γ t p m hm
  subst hse
  exact ⟨m, htry, rfl, rfl⟩

theorem fileFindAll_mem (t : List Char) (se : Nat × Nat)
    (h : se ∈ fileFindAll t) :
    ∃ m : FileM, fileTryAt t se.1 = some m ∧ m.start = se.1 ∧
      m.stop = se.2 := by
  obtain ⟨p, hp⟩ := findAllAux_mem _ _ _ se h
  simp only [Option.map_eq_some'] at hp
  obtain ⟨m, hm, hse⟩ := hp
  obtain ⟨-, htry⟩ := fileFindFrom_spec t p m hm
  subst hse
  exact ⟨m, htry, rfl, rfl⟩

theorem imageFindAll_mem (t : List Char) (se : Nat × Nat)
    (h : se ∈ imageFindAll t) :
    ∃ m : ImageM, imageTryAt t se.1 = some m ∧ m.start = se.1 ∧
      m.stop = se.2 := by
  obtain ⟨p, hp⟩ := findAllAux_mem _ _ _ se h
  simp only [Option.map_eq_some'] at hp
  obtain ⟨m, hm, hse⟩ := hp
  obtain ⟨-, htry⟩ := imageFindFrom_spec t p m hm
  subst hse
  exact ⟨m, htry, rfl, rfl⟩

/-! ### The builders assign the supplied span as the item position -/

theorem NewFile_eq (content : List Char) (pos : Nat × Nat) (m : FileM)
    (h : fileTryAt content 0 = some m) :
    NewFile content pos =
      ⟨(pathUnescape (slice content m.locStart
          (m.locStart + m.locLen))).getD [],
        slice content m.nameStart (m.nameStart + m.nameLen), pos⟩ := by
  unfold NewFile fileFindFrom
  rw [findSome?_range'_zero _ _ _ (by omega) h]

theorem NewImage_eq (content : List Char) (pos : Nat × Nat) (m : ImageM)
    (h : imageTryAt content 0 = some m) :
    NewImage content pos =
      ⟨(pathUnescape (slice content m.locStart
          (m.locStart + m.locLen))).getD [],
        slice content (m.start + 2) (m.start + 2 + m.descLen), pos⟩ := by
  unfold NewImage imageFindFrom
  rw [findSome?_range'_zero _ _ _ (by omega) h]

theorem NewFile_position_of_mem (t : List Char) (se : Nat × Nat)
    (h : se ∈ fileFindAll t) :
    (NewFile (slice t se.1 se.2) se).position = se := by
  obtain ⟨m, htry, hs, he⟩ := fileFindAll_mem t se h
  have hsp := file_selfparse t se.1 m htry
  rw [he] at hsp
  rw [NewFile_eq (slice t se.1 se.2) se _ hsp]

theorem NewImage_position_of_mem (t : List Char) (se : Nat × Nat)
    (h : se ∈ imageFindAll t) :
    (NewImage (slice t se.1 se.2) se).position = se := by
  obtain ⟨m, htry, hs, he⟩ := imageFindAll_mem t se h
  have hsp := image_selfparse t se.1 m htry
  rw [he] at hsp
  rw [NewImage_eq (slice t se.1 se.2) se _ hsp]

theorem NewTag_position_of_name (Γ : RuneClass) (content : List Char)
    (pos : Nat × Nat) (h : 0 < (NewTag Γ content pos).Name.length) :
    (NewTag Γ content pos).position = pos := by
  unfold NewTag at h ⊢
  cases hf : tagFindFrom Γ content 0 with
  | none => rw [hf] at h; simp [Tag.zero] at h
  | some m =>
    rw [hf] at h
    dsimp only at h ⊢
    split
    · rfl
    · rename_i hneg
      rw [if_neg hneg] at h
      simp [Tag.zero] at h

theorem map_filterMap_sublist {α β : Type} (l : List α) (f : α → Option β)
    (g : β → α) (h : ∀ a b, f a = some b → g b = a) :
    ((l.filterMap f).map g).Sublist l := by
  induction l with
  | nil => simp
  | cons a rest ih =>
    rw [List.filterMap_cons]
    cases hf : f a with
    | none => exact List.Sublist.cons a ih
    | some b =>
      rw [List.map_cons, h a b hf]
      exact List.Sublist.cons₂ a ih

theorem loadNote_tag_positions_sublist (Γ : RuneClass) (t : List Char) :
    ((LoadNote Γ t).Tags.map fun tag => tag.position).Sublist
      (tagFindAll Γ t) := by
  unfold LoadNote
  dsimp only
  apply map_filterMap_sublist
  intro se tag hf
  split at hf
  · injection hf with hf
    subst hf
    exact NewTag_position_of_name Γ _ se (by assumption)
  · exact Option.noConfusion hf

theorem loadNote_file_positions (Γ : RuneClass) (t : List Char) :
    ((LoadNote Γ t).Files.map fun f => f.position) = fileFindAll t := by
  unfold LoadNote
  dsimp only
  rw [List.map_map]
  conv_rhs => rw [← List.map_id (fileFindAll t)]
  apply List.map_congr_left
  intro se hse
  simpa using NewFile_position_of_mem t se hse

theorem loadNote_image_positions (Γ : RuneClass) (t : List Char) :
    ((LoadNote Γ t).Images.map fun i => i.position) = imageFindAll t := by
  unfold LoadNote
  dsimp only
  rw [List.map_map]
  conv_rhs => rw [← List.map_id (imageFindAll t)]
  apply List.map_congr_left
  intro se hse
  simpa using NewImage_position_of_mem t se hse

/-! ### Correctness of the sort-and-splice serializer -/

theorem insertRevd_perm (less : Item → Item → Bool) (x : Item)
    (r : List Item) : (insertRevd less x r).Perm (x :: r) := by
  induction r with
  | nil => simp [insertRevd]
  | cons y ys ih =>
    simp only [insertRevd]
    split
    · exact (ih.cons y).trans (List.Perm.swap x y ys)
    · exact List.Perm.refl _

theorem foldl_insertRevd_perm (less : Item → Item → Bool) :
    ∀ (l acc : List Item),
      (l.foldl (fun r x => insertRevd less x r) acc).Perm (l ++ acc) := by
  intro l
  induction l with
  | nil => simp
  | cons x l ih =>
    intro acc
    simp only [List.foldl_cons]
    refine (ih (insertRevd less x acc)).trans ?_
    refine (List.Perm.append_left l (insertRevd_perm less x acc)).trans ?_
    exact List.perm_middle

theorem goSort_perm (less : Item → Item → Bool) (l : List Item) :
    (goSort less l).Perm l := by
  unfold goSort
  refine (List.reverse_perm _).trans ?_
  simpa using foldl_insertRevd_perm less l []

theorem insertRevd_sorted (x : Item) (r : List Item)
    (hs : r.Pairwise fun a b => b.2.2 ≤ a.2.1)
    (hnex : x.2.1 < x.2.2) (hner : ∀ y ∈ r, y.2.1 < y.2.2)
    (hd : ∀ y ∈ r, x.2.2 ≤ y.2.1 ∨ y.2.2 ≤ x.2.1) :
    (insertRevd lessGo x r).Pairwise fun a b => b.2.2 ≤ a.2.1 := by
  induction r with
  | nil => simp [insertRevd]
  | cons y ys ih =>
    rw [List.pairwise_cons] at hs
    simp only [insertRevd]
    split
    · rename_i hxy
      have hxy' : x.2.1 < y.2.2 := by
        have : lessGo x y = true := hxy
        unfold lessGo at this
        rw [decide_eq_true_eq] at this
        exact this
      have hbxy : x.2.2 ≤ y.2.1 := by
        rcases hd y (List.mem_cons_self y ys) with h | h
        · exact h
        · omega
      rw [List.pairwise_cons]
      constructor
      · intro z hz
        have hz' : z ∈ x :: ys := (insertRevd_perm lessGo x ys).mem_iff.mp hz
        rcases List.mem_cons.mp hz' with rfl | hz'
        · exact hbxy
        · exact hs.1 z hz'
      · exact ih hs.2 (fun y hy => hner y (List.mem_cons_of_mem _ hy))
          fun y hy => hd y (List.mem_cons_of_mem _ hy)
    · rename_i hxy
      have hyx : y.2.2 ≤ x.2.1 := by
        have : ¬ lessGo x y = true := hxy
        unfold lessGo at this
        rw [decide_eq_true_eq] at this
        omega
      rw [List.pairwise_cons]
      constructor
      · intro z hz
        rcases List.mem_cons.mp hz with rfl | hz
        · exact hyx
        · have h1 : z.2.2 ≤ y.2.1 := hs.1 z hz
          have h2 : y.2.1 < y.2.2 := hner y (List.mem_cons_self y ys)
          omega
      · rw [List.pairwise_cons]
        exact ⟨hs.1, hs.2⟩

theorem goSort_sorted (l : List Item)
    (hne : ∀ it ∈ l, it.2.1 < it.2.2)
    (hd : l.Pairwise fun a b => a.2.2 ≤ b.2.1 ∨ b.2.2 ≤ a.2.1) :
    (goSort lessGo l).Pairwise fun a b => a.2.2 ≤ b.2.1 := by
  unfold goSort
  rw [List.pairwise_reverse]
  have hdsym : ∀ {a b : Item}, (a.2.2 ≤ b.2.1 ∨ b.2.2 ≤ a.2.1) →
      (b.2.2 ≤ a.2.1 ∨ a.2.2 ≤ b.2.1) := fun h => h.symm
  have main : ∀ (l2 acc : List Item),
      (∀ it ∈ l2 ++ acc, it.2.1 < it.2.2) →
      ((l2 ++ acc).Pairwise fun a b =>
        a.2.2 ≤ b.2.1 ∨ b.2.2 ≤ a.2.1) →
      (acc.Pairwise fun a b => b.2.2 ≤ a.2.1) →
      ((l2.foldl (fun r x => insertRevd lessGo x r) acc).Pairwise
        fun a b => b.2.2 ≤ a.2.1) := by
    intro l2
    induction l2 with
    | nil => intro acc _ _ hs; simpa using hs
    | cons x l3 ih =>
      intro acc hne2 hd2 hs
      simp only [List.foldl_cons]
      have hperm : ((x :: l3) ++ acc).Perm
          (l3 ++ insertRevd lessGo x acc) := by
        refine List.Perm.trans ?_
          (List.Perm.append_left l3 (insertRevd_perm lessGo x acc)).symm
        exact List.perm_middle.symm
      have hd3 := hd2
      rw [List.cons_append, List.pairwise_cons] at hd3
      refine ih (insertRevd lessGo x acc) ?_ ?_ ?_
      · intro it hit
        exact hne2 it (hperm.mem_iff.mpr hit)
      · exact (hperm.pairwise_iff fun h => hdsym h).mp hd2
      · refine insertRevd_sorted x acc hs (hne2 x (by simp)) ?_ ?_
        · intro y hy
          exact hne2 y (by simp [hy])
        · intro y hy
          exact hd3.1 y (by simp [hy])
  exact main l [] (by simpa using hne) (by simpa using hd) (by simp)

theorem goSort_of_sorted (l : List Item)
    (hs : l.Pairwise fun a b => a.2.2 ≤ b.2.1) :
    goSort lessGo l = l := by
  unfold goSort
  have main : ∀ (l2 acc : List Item),
      (l2.Pairwise fun a b => a.2.2 ≤ b.2.1) →
      (∀ x ∈ l2, ∀ y ∈ acc, y.2.2 ≤ x.2.1) →
      l2.foldl (fun r x => insertRevd lessGo x r) acc =
        l2.reverse ++ acc := by
    intro l2
    induction l2 with
    | nil => intro acc _ _; simp
    | cons x l3 ih =>
      intro acc hp hacc
      simp only [List.foldl_cons]
      have hins : insertRevd lessGo x acc = x :: acc := by
        cases acc with
        | nil => rfl
        | cons y ys =>
          simp only [insertRevd]
          rw [if_neg]
          show ¬ lessGo x y = true
          unfold lessGo
          rw [decide_eq_true_eq]
          have := hacc x (List.mem_cons_self x l3) y
            (List.mem_cons_self y ys)
          omega
      rw [hins, ih (x :: acc) (List.pairwise_cons.mp hp).2 ?_]
      · simp
      · intro z hz y hy
        rcases List.mem_cons.mp hy with rfl | hy
        · exact (List.pairwise_cons.mp hp).1 z hz
        · exact hacc z (List.mem_cons_of_mem _ hz) y hy
  rw [main l [] hs (by simp)]
  simp

theorem spliceGo_eq_spliceC (t : List Char) :
    ∀ (l : List Item) (c : Nat), c ≤ t.length →
      (∀ it ∈ l, c ≤ it.2.1 ∧ it.2.1 ≤ it.2.2 ∧ it.2.2 ≤ t.length) →
      (l.Pairwise fun a b => a.2.2 ≤ b.2.1) →
      spliceGo t c l = some (spliceC t c l) := by
  intro l
  induction l with
  | nil =>
    intro c hc _ _
    simp [spliceGo, spliceC, hc]
  | cons it rest ih =>
    intro c hc hmem hp
    obtain ⟨r, s, e⟩ := it
    obtain ⟨h1, h2, h3⟩ := hmem (r, s, e) (List.mem_cons_self _ _)
    have h1' : c ≤ s := h1
    have h2' : s ≤ e := h2
    have h3' : e ≤ t.length := h3
    have hrest : ∀ x ∈ rest, e ≤ x.2.1 ∧ x.2.1 ≤ x.2.2 ∧
        x.2.2 ≤ t.length := by
      intro x hx
      have hex : e ≤ x.2.1 := (List.pairwise_cons.mp hp).1 x hx
      exact ⟨hex, (hmem x (List.mem_cons_of_mem _ hx)).2⟩
    simp only [spliceGo, spliceC]
    rw [if_pos (by rw [Bool.and_eq_true]; exact ⟨decide_eq_true h1',
      decide_eq_true (show s ≤ t.length by omega)⟩)]
    rw [ih e h3' hrest (List.pairwise_cons.mp hp).2]
    rfl

theorem spliceC_self (t : List Char) :
    ∀ (l : List Item) (c : Nat), c ≤ t.length →
      (∀ it ∈ l, it.1 = slice t it.2.1 it.2.2) →
      (∀ it ∈ l, c ≤ it.2.1 ∧ it.2.1 ≤ it.2.2 ∧ it.2.2 ≤ t.length) →
      (l.Pairwise fun a b => a.2.2 ≤ b.2.1) →
      spliceC t c l = slice t c t.length := by
  intro l
  induction l with
  | nil => intro c _ _ _ _; rfl
  | cons it rest ih =>
    intro c hc hself hmem hp
    obtain ⟨r, s, e⟩ := it
    obtain ⟨h1, h2, h3⟩ := hmem (r, s, e) (List.mem_cons_self _ _)
    have h1' : c ≤ s := h1
    have h2' : s ≤ e := h2
    have h3' : e ≤ t.length := h3
    have hr : r = slice t s e := hself (r, s, e) (List.mem_cons_self _ _)
    have hrest : ∀ x ∈ rest, e ≤ x.2.1 ∧ x.2.1 ≤ x.2.2 ∧
        x.2.2 ≤ t.length := by
      intro x hx
      have hex : e ≤ x.2.1 := (List.pairwise_cons.mp hp).1 x hx
      exact ⟨hex, (hmem x (List.mem_cons_of_mem _ hx)).2⟩
    simp only [spliceC]
    rw [hr, ih e h3' (fun x hx => hself x (List.mem_cons_of_mem _ hx))
      hrest (List.pairwise_cons.mp hp).2]
    rw [List.append_assoc, slice_append t s e t.length h2' h3',
      slice_append t c s t.length h1' (by omega)]

theorem spliceC_one (t : List Char) (r : List Char) (s e : Nat) :
    ∀ (l1 l2 : List Item) (c : Nat), c ≤ t.length →
      (∀ it ∈ l1, it.1 = slice t it.2.1 it.2.2) →
      (∀ it ∈ l2, it.1 = slice t it.2.1 it.2.2) →
      (∀ it ∈ l1 ++ (r, s, e) :: l2,
        c ≤ it.2.1 ∧ it.2.1 ≤ it.2.2 ∧ it.2.2 ≤ t.length) →
      ((l1 ++ (r, s, e) :: l2).Pairwise fun a b => a.2.2 ≤ b.2.1) →
      spliceC t c (l1 ++ (r, s, e) :: l2) =
        slice t c s ++ r ++ slice t e t.length := by
  intro l1
  induction l1 with
  | nil =>
    intro l2 c hc hs1 hs2 hmem hp
    obtain ⟨h1, h2, h3⟩ := hmem (r, s, e) (by simp)
    have h3' : e ≤ t.length := h3
    rw [List.nil_append] at hp ⊢
    have hp' := List.pairwise_cons.mp hp
    simp only [spliceC]
    rw [spliceC_self t l2 e (by omega) hs2 ?_ hp'.2]
    intro x hx
    have hex : e ≤ x.2.1 := hp'.1 x hx
    exact ⟨hex, (hmem x (by simp [hx])).2⟩
  | cons x l3 ih =>
    intro l2 c hc hs1 hs2 hmem hp
    obtain ⟨rx, sx, ex⟩ := x
    obtain ⟨h1, h2, h3⟩ := hmem (rx, sx, ex) (by simp)
    have h1' : c ≤ sx := h1
    have h2' : sx ≤ ex := h2
    have h3' : ex ≤ t.length := h3
    have hrx : rx = slice t sx ex := hs1 (rx, sx, ex) (by simp)
    rw [List.cons_append] at hp ⊢
    have hp' := List.pairwise_cons.mp hp
    have hexs : ex ≤ s := hp'.1 (r, s, e) (by simp)
    simp only [spliceC]
    rw [hrx, ih l2 ex h3'
      (fun z hz => hs1 z (List.mem_cons_of_mem _ hz)) hs2 ?_ hp'.2]
    · rw [← List.append_assoc, slice_append t c sx ex h1' h2',
        List.append_assoc]
      simp only [← List.append_assoc]
      rw [slice_append t c ex s (by omega) hexs]
    · intro z hz
      have hez : ex ≤ z.2.1 := hp'.1 z hz
      exact ⟨hez, (hmem z (List.mem_cons_of_mem _ hz)).2⟩

/-! ### A kept tag renders back to exactly its matched substring -/

theorem NewTag_string_of_match (Γ : RuneClass) (hL : Γ.letter '#' = false)
    (t : List Char) (s e : Nat) (m : TagM) (h : tagTryAt Γ t s = some m)
    (he : m.stop = e) (pos : Nat × Nat)
    (hkeep : 0 < (NewTag Γ (slice t s e) pos).Name.length) :
    (NewTag Γ (slice t s e) pos).string = slice t s e := by
  subst he
  obtain ⟨hstart, hname1, hg1le, hg3le, hs2, hlen⟩ := tagTryAt_spec Γ t s m h
  have hsp := tag_selfparse Γ hL t s m h
  have hsublen : (slice t s m.stop).length = m.stop - s := by
    rw [slice_length]
    omega
  have hstop : m.stop = s + m.g1len + 1 + m.nameLen + m.g3len := by
    rw [← hstart]
    rfl
  have hff : tagFindFrom Γ (slice t s m.stop) 0 =
      some ⟨0, m.g1len, m.nameLen, m.g3len⟩ := by
    unfold tagFindFrom
    exact findSome?_range'_zero _ _ _ (by omega) hsp
  unfold NewTag at hkeep ⊢
  rw [hff] at hkeep ⊢
  dsimp only at hkeep ⊢
  split; rotate_left
  · rename_i hneg
    rw [if_neg hneg] at hkeep
    simp [Tag.zero] at hkeep
  rename_i hvalid
  unfold Tag.string
  dsimp only
  have hhash : (slice t s m.stop)[m.g1len]? = some '#' := by
    rw [slice_getElem?, if_pos (by omega)]
    have hbranch : tagCoreAt Γ t (s + m.g1len) = true := by
      unfold tagTryAt at h
      split at h
      · rename_i hcond
        rw [Bool.and_eq_true, beq_iff_eq] at hcond
        have hs0 : s = 0 := by simpa using hcond.1
        subst hs0
        injection h with h
        subst h
        simpa using hcond.2
      · split at h
        · rename_i hcond
          rw [Bool.and_eq_true] at hcond
          injection h with h
          subst h
          exact hcond.2
        · split at h
          · rename_i hcond
            injection h with h
            subst h
            simpa using hcond
          · exact Option.noConfusion h
    exact (tagCoreAt_spec Γ t _ hbranch).1
  have hnamelen : (slice (slice t s m.stop) (0 + m.g1len + 1)
      (0 + m.g1len + 1 + m.nameLen)).length = m.nameLen := by
    rw [slice_length, hsublen]
    omega
  rw [if_neg (by rw [hnamelen]; omega)]
  -- reassemble the four segments of the matched substring
  have hseg1 : slice (slice t s m.stop) 0 (0 + m.g1len) ++
      slice (slice t s m.stop) (0 + m.g1len) (0 + m.g1len + 1) =
      slice (slice t s m.stop) 0 (0 + m.g1len + 1) :=
    slice_append _ 0 (0 + m.g1len) (0 + m.g1len + 1) (by omega) (by omega)
  have hseg2 : slice (slice t s m.stop) 0 (0 + m.g1len + 1) ++
      slice (slice t s m.stop) (0 + m.g1len + 1)
        (0 + m.g1len + 1 + m.nameLen) =
      slice (slice t s m.stop) 0 (0 + m.g1len + 1 + m.nameLen) :=
    slice_append _ 0 _ _ (by omega) (by omega)
  have hseg3 : slice (slice t s m.stop) 0 (0 + m.g1len + 1 + m.nameLen) ++
      slice (slice t s m.stop) (0 + m.g1len + 1 + m.nameLen)
        (TagM.stop ⟨0, m.g1len, m.nameLen, m.g3len⟩) =
      slice (slice t s m.stop) 0
        (TagM.stop ⟨0, m.g1len, m.nameLen, m.g3len⟩) :=
    slice_append _ 0 _ _ (by omega) (by
      show 0 + m.g1len + 1 + m.nameLen ≤ 0 + m.g1len + 1 + m.nameLen +
        m.g3len
      omega)
  have hmid : slice (slice t s m.stop) (0 + m.g1len) (0 + m.g1len + 1) =
      ['#'] := by
    apply slice_singleton
    simpa using hhash
  have hfull : slice (slice t s m.stop) 0
      (TagM.stop ⟨0, m.g1len, m.nameLen, m.g3len⟩) = slice t s m.stop := by
    have : TagM.stop ⟨0, m.g1len, m.nameLen, m.g3len⟩ =
        (slice t s m.stop).length := by
      rw [hsublen]
      show 0 + m.g1len + 1 + m.nameLen + m.g3len = m.stop - s
      omega
    rw [this, slice_zero_len]
  calc slice (slice t s m.stop) 0 (0 + m.g1len) ++
        '#' :: slice (slice t s m.stop) (0 + m.g1len + 1)
          (0 + m.g1len + 1 + m.nameLen) ++
        slice (slice t s m.stop) (0 + m.g1len + 1 + m.nameLen)
          (TagM.stop ⟨0, m.g1len, m.nameLen, m.g3len⟩)
      = (slice (slice t s m.stop) 0 (0 + m.g1len) ++
          slice (slice t s m.stop) (0 + m.g1len) (0 + m.g1len + 1) ++
          slice (slice t s m.stop) (0 + m.g1len + 1)
            (0 + m.g1len + 1 + m.nameLen)) ++
        slice (slice t s m.stop) (0 + m.g1len + 1 + m.nameLen)
          (TagM.stop ⟨0, m.g1len, m.nameLen, m.g3len⟩) := by
        rw [hmid]
        simp [List.append_assoc]
    _ = slice t s m.stop := by
        rw [hseg1, hseg2, hseg3, hfull]

theorem loadNote_tags_mem (Γ : RuneClass) (t : List Char) (tag : Tag)
    (htag : tag ∈ (LoadNote Γ t).Tags) :
    ∃ se ∈ tagFindAll Γ t, tag = NewTag Γ (slice t se.1 se.2) se ∧
      0 < tag.Name.length := by
  unfold LoadNote at htag
  dsimp only at htag
  rw [List.mem_filterMap] at htag
  obtain ⟨se, hse, hf⟩ := htag
  split at hf
  · injection hf with hf
    subst hf
    rename_i hkeep
    exact ⟨se, hse, rfl, hkeep⟩
  · exact Option.noConfusion hf

theorem loadNote_content (Γ : RuneClass) (t : List Char) :
    (LoadNote Γ t).content = t := rfl

theorem loadNote_items_tags_only (Γ : RuneClass) (t : List Char)
    (hf : fileFindAll t = []) (hi : imageFindAll t = []) :
    noteItems (LoadNote Γ t) = (LoadNote Γ t).Tags.map
      fun tg => (tg.string, tg.position) := by
  unfold noteItems
  have hF : (LoadNote Γ t).Files = [] := by
    show (fileFindAll t).map _ = []
    rw [hf]
    rfl
  have hI : (LoadNote Γ t).Images = [] := by
    show (imageFindAll t).map _ = []
    rw [hi]
    rfl
  rw [hF, hI]
  simp

theorem loadNote_item_facts (Γ : RuneClass) (hL : Γ.letter '#' = false)
    (t : List Char) (tag : Tag) (htag : tag ∈ (LoadNote Γ t).Tags) :
    tag.string = slice t tag.position.1 tag.position.2 ∧
    tag.position ∈ tagFindAll Γ t := by
  obtain ⟨se, hse, htageq, hkeep⟩ := loadNote_tags_mem Γ t tag htag
  have hpos : tag.position = se := by
    rw [htageq]
    exact NewTag_position_of_name Γ _ se (htageq ▸ hkeep)
  obtain ⟨m, htry, hms, hme⟩ := tagFindAll_mem Γ t se hse
  constructor
  · rw [hpos, htageq]
    have := NewTag_string_of_match Γ hL t se.1 se.2 m htry hme
      (se.1, se.2) ?_
    · simpa using this
    · have hse2 : ((se.1, se.2) : Nat × Nat) = se := rfl
      rw [hse2]
      exact htageq ▸ hkeep
  · rw [hpos]
    exact hse

/-! ### Claim C1 -/

/-- C1 (counterexample): the claim that `WriteNote` after `LoadNote` with
no mutation reproduces every input containing the three constructs is
false: a file attachment in Bear syntax is re-serialized in Zettlr link
syntax, so the input containing the file construct
`<a href="a">b</a>` round-trips to `[b](a)`, a different string. -/
theorem claim_C1_counterexample :
    WriteNote (LoadNote asciiRC ("<a href=\"a\">b</a>".toList)) =
      some ("[b](a)".toList) ∧
    ("[b](a)".toList : List Char) ≠ "<a href=\"a\">b</a>".toList := by
  refine ⟨by decide, by decide⟩

/-- C1 (amended): round-trip identity holds for inputs in which the file
and image grammars find no match (texts containing only tags and plain
prose, including the empty text): parsing with `LoadNote` and immediately
serializing with `WriteNote`, with no mutation, returns the input
unchanged.  (`Γ.letter '#' = false` records the Unicode fact that `#` is
not a letter.) -/
theorem claim_C1_amended (Γ : RuneClass) (hL : Γ.letter '#' = false)
    (t : List Char) (hf : fileFindAll t = []) (hi : imageFindAll t = []) :
    WriteNote (LoadNote Γ t) = some t := by
  have hItems := loadNote_items_tags_only Γ t hf hi
  have hinv := tagFindAll_invariant Γ t
  have hself : ∀ it ∈ noteItems (LoadNote Γ t),
      it.1 = slice t it.2.1 it.2.2 := by
    rw [hItems]
    intro it hit
    rw [List.mem_map] at hit
    obtain ⟨tag, htag, rfl⟩ := hit
    exact (loadNote_item_facts Γ hL t tag htag).1
  have hbounds : ∀ it ∈ noteItems (LoadNote Γ t),
      0 ≤ it.2.1 ∧ it.2.1 ≤ it.2.2 ∧ it.2.2 ≤ t.length := by
    rw [hItems]
    intro it hit
    rw [List.mem_map] at hit
    obtain ⟨tag, htag, rfl⟩ := hit
    have hmem := (loadNote_item_facts Γ hL t tag htag).2
    have := hinv.1 tag.position hmem
    refine ⟨Nat.zero_le _, ?_, ?_⟩
    · show tag.position.1 ≤ tag.position.2
      omega
    · show tag.position.2 ≤ t.length
      exact this.2
  have hpw : (noteItems (LoadNote Γ t)).Pairwise
      fun a b => a.2.2 ≤ b.2.1 := by
    rw [hItems, List.pairwise_map]
    have := hinv.2.sublist (loadNote_tag_positions_sublist Γ t)
    rw [List.pairwise_map] at this
    exact this
  unfold WriteNote
  rw [loadNote_content]
  rw [goSort_of_sorted _ hpw]
  rw [spliceGo_eq_spliceC t _ 0 (by omega) hbounds hpw]
  rw [spliceC_self t _ 0 (by omega) hself hbounds hpw]
  rw [slice_zero_len]

/-- C1 (witness): a concrete tag-only input on which the amended round
trip applies. -/
theorem claim_C1_amended_witness :
    WriteNote (LoadNote asciiRC ("x #a y".toList)) =
      some ("x #a y".toList) :=
  claim_C1_amended asciiRC (by decide) ("x #a y".toList) (by decide)
    (by decide)

/-! ### Claim C2 -/

/-- C2 (counterexample): the claim quantifies over every Note whose item
spans are pairwise non-overlapping.  A zero-width span `[5, 5)` nested
inside `[3, 8)` shares no position with it (`max 5 3 < min 5 8` is false),
yet `WriteNote` panics (modelled by `none`) instead of emitting the items:
the sort comparator `items[i].position[0] < items[j].position[1]` is
inconsistent on such spans and the splice slices out of range. -/
theorem claim_C2_counterexample :
    WriteNote { Tags := [⟨"x".toList, (5, 5), [], []⟩]
                Files := []
                Images := [⟨"i".toList, "d".toList, (3, 8)⟩]
                content := "0123456789".toList } = none ∧
    ¬ (max 5 3 < min 5 8) := by
  refine ⟨by decide, by decide⟩

/-- C2 (amended): for every Note whose item spans are nonempty, within the
text bounds, and pairwise non-overlapping, `WriteNote` succeeds and emits
the items in ascending span order — there is an ordering `l` of the items,
sorted so that each span ends no later than the next begins, such that the
output is the canonical splice of `l`: every byte outside the item spans
is reproduced unchanged in its original relative position, and each span
is replaced by its rendering. -/
theorem claim_C2_amended (n : Note)
    (hne : ∀ it ∈ noteItems n, it.2.1 < it.2.2 ∧ it.2.2 ≤ n.content.length)
    (hd : (noteItems n).Pairwise fun a b => a.2.2 ≤ b.2.1 ∨ b.2.2 ≤ a.2.1) :
    ∃ l, l.Perm (noteItems n) ∧ (l.Pairwise fun a b => a.2.2 ≤ b.2.1) ∧
      WriteNote n = some (spliceC n.content 0 l) := by
  have hsorted := goSort_sorted (noteItems n)
    (fun it hit => (hne it hit).1) hd
  refine ⟨goSort lessGo (noteItems n), goSort_perm _ _, hsorted, ?_⟩
  unfold WriteNote
  refine spliceGo_eq_spliceC n.content _ 0 (Nat.zero_le _) ?_ hsorted
  intro it hit
  have hit' : it ∈ noteItems n :=
    (goSort_perm lessGo (noteItems n)).mem_iff.mp hit
  have := hne it hit'
  exact ⟨Nat.zero_le _, by omega, this.2⟩

/-- C2 (witness): a concrete Note holding a tag at span `[4, 6)` and an
image at span `[0, 3)`, on which the amended claim applies. -/
theorem claim_C2_amended_witness :
    ∃ l, l.Perm (noteItems { Tags := [⟨"t".toList, (4, 6), [' '], []⟩]
                             Files := []
                             Images := [⟨"u".toList, [], (0, 3)⟩]
                             content := "0123456789".toList }) ∧
      (l.Pairwise fun a b => a.2.2 ≤ b.2.1) ∧
      WriteNote { Tags := [⟨"t".toList, (4, 6), [' '], []⟩]
                  Files := []
                  Images := [⟨"u".toList, [], (0, 3)⟩]
                  content := "0123456789".toList } =
        some (spliceC "0123456789".toList 0 l) :=
  claim_C2_amended _ (by decide) (by decide)

/-! ### Claim C8 -/

/-- C8: setting a parsed tag's name to the empty string and re-serializing
removes the `#` marker and the name from the output while preserving both
captured boundary characters verbatim and leaving everything outside that
tag's span untouched: for a text in which the file and image grammars find
no match, blanking tag `i` makes `WriteNote` return the original text with
that tag's span replaced by `before ++ after` (the `Tag.String` rendering
for an empty name). -/
theorem claim_C8 (Γ : RuneClass) (hL : Γ.letter '#' = false)
    (t : List Char) (hf : fileFindAll t = []) (hi : imageFindAll t = [])
    (i : Nat) (hlt : i < (LoadNote Γ t).Tags.length) :
    WriteNote { LoadNote Γ t with
        Tags := (LoadNote Γ t).Tags.set i
          { (LoadNote Γ t).Tags.get ⟨i, hlt⟩ with Name := [] } } =
      some (slice t 0 ((LoadNote Γ t).Tags.get ⟨i, hlt⟩).position.1 ++
        (((LoadNote Γ t).Tags.get ⟨i, hlt⟩).before ++
          ((LoadNote Γ t).Tags.get ⟨i, hlt⟩).after) ++
        slice t ((LoadNote Γ t).Tags.get ⟨i, hlt⟩).position.2 t.length) := by
  have hinv := tagFindAll_invariant Γ t
  set n := LoadNote Γ t with hn
  set tag := n.Tags.get ⟨i, hlt⟩ with htagdef
  have htagmem : tag ∈ n.Tags := List.get_mem n.Tags i hlt
  set tag' : Tag := { tag with Name := [] } with htagp
  set n' : Note := { n with Tags := n.Tags.set i tag' } with hnp
  have hcontent : n'.content = t := rfl
  have hItems' : noteItems n' = (n.Tags.set i tag').map
      fun tg => (tg.string, tg.position) := by
    unfold noteItems
    have hF : n'.Files = [] := by
      show (fileFindAll t).map _ = []
      rw [hf]
      rfl
    have hI : n'.Images = [] := by
      show (imageFindAll t).map _ = []
      rw [hi]
      rfl
    rw [hF, hI]
    simp [hnp]
  have hmemset : ∀ z ∈ n.Tags.set i tag',
      z.position ∈ tagFindAll Γ t ∧
      (z = tag' ∨ z.string = slice t z.position.1 z.position.2) := by
    intro z hz
    rcases List.mem_or_eq_of_mem_set hz with hz' | rfl
    · obtain ⟨hstr, hmem⟩ := loadNote_item_facts Γ hL t z hz'
      exact ⟨hmem, Or.inr hstr⟩
    · have hpos : tag'.position = tag.position := rfl
      rw [hpos]
      exact ⟨(loadNote_item_facts Γ hL t tag htagmem).2, Or.inl rfl⟩
  have hpos_eq : (n.Tags.set i tag').map (fun tg => tg.position) =
      n.Tags.map fun tg => tg.position := by
    rw [List.set_eq_take_cons_drop _ hlt]
    conv_rhs => rw [← List.take_append_drop i n.Tags,
      List.drop_eq_getElem_cons hlt]
    rw [List.map_append, List.map_append, List.map_cons, List.map_cons]
    rfl
  have hpw : ((n.Tags.set i tag').map
      (fun tg => (tg.string, tg.position))).Pairwise
      fun a b => a.2.2 ≤ b.2.1 := by
    rw [List.pairwise_map]
    have h0 := hinv.2.sublist (loadNote_tag_positions_sublist Γ t)
    rw [← hpos_eq, List.pairwise_map] at h0
    exact h0
  have hbounds : ∀ it ∈ (n.Tags.set i tag').map
      (fun tg => (tg.string, tg.position)),
      0 ≤ it.2.1 ∧ it.2.1 ≤ it.2.2 ∧ it.2.2 ≤ t.length := by
    intro it hit
    rw [List.mem_map] at hit
    obtain ⟨z, hz, rfl⟩ := hit
    have := hinv.1 z.position (hmemset z hz).1
    refine ⟨Nat.zero_le _, ?_, ?_⟩
    · show z.position.1 ≤ z.position.2
      omega
    · show z.position.2 ≤ t.length
      exact this.2
  have hdecomp : (n.Tags.set i tag').map
      (fun tg => (tg.string, tg.position)) =
      (n.Tags.take i).map (fun tg => (tg.string, tg.position)) ++
        (tag.before ++ tag.after, tag.position.1, tag.position.2) ::
        (n.Tags.drop (i + 1)).map fun tg => (tg.string, tg.position) := by
    rw [List.set_eq_take_cons_drop _ hlt, List.map_append, List.map_cons]
    congr 1
  unfold WriteNote
  rw [hcontent, hItems', goSort_of_sorted _ hpw]
  rw [spliceGo_eq_spliceC t _ 0 (Nat.zero_le _) hbounds hpw]
  rw [hdecomp] at hbounds hpw ⊢
  rw [spliceC_one t (tag.before ++ tag.after) tag.position.1 tag.position.2
    _ _ 0 (Nat.zero_le _) ?_ ?_ hbounds hpw]
  · intro z hz
    rw [List.mem_map] at hz
    obtain ⟨w, hw, rfl⟩ := hz
    have hw' : w ∈ n.Tags := List.mem_of_mem_take hw
    exact (loadNote_item_facts Γ hL t w hw').1
  · intro z hz
    rw [List.mem_map] at hz
    obtain ⟨w, hw, rfl⟩ := hz
    have hw' : w ∈ n.Tags := List.mem_of_mem_drop hw
    exact (loadNote_item_facts Γ hL t w hw').1

/-- C8 (witness): blanking the middle tag of `#a #b #c` removes `#b` while
keeping its two boundary spaces and the neighbouring tags intact. -/
theorem claim_C8_witness :
    WriteNote { LoadNote asciiRC ("#a #b #c".toList) with
        Tags := (LoadNote asciiRC ("#a #b #c".toList)).Tags.set 1
          { (LoadNote asciiRC ("#a #b #c".toList)).Tags.get
              ⟨1, by decide⟩ with Name := [] } } =
      some (slice ("#a #b #c".toList) 0
          ((LoadNote asciiRC ("#a #b #c".toList)).Tags.get
            ⟨1, by decide⟩).position.1 ++
        (((LoadNote asciiRC ("#a #b #c".toList)).Tags.get
            ⟨1, by decide⟩).before ++
          ((LoadNote asciiRC ("#a #b #c".toList)).Tags.get
            ⟨1, by decide⟩).after) ++
        slice ("#a #b #c".toList)
          ((LoadNote asciiRC ("#a #b #c".toList)).Tags.get
            ⟨1, by decide⟩).position.2 ("#a #b #c".toList).length) :=
  claim_C8 asciiRC (by decide) ("#a #b #c".toList) (by decide) (by decide)
    1 (by decide)

/-! ### Claim C4 -/

/-- C4 (counterexample): the claim that the spans of all items produced by
`LoadNote`, across the three collections together, are pairwise
non-overlapping is false: on the input `![ #a ](x)` the parser produces a
valid Tag with span `[2, 6)` inside an Image with span `[0, 10)`, and the
two ranges intersect (`max 2 0 < min 6 10`). -/
theorem claim_C4_counterexample :
    ((LoadNote asciiRC ("![ #a ](x)".toList)).Tags.map
      fun tag => tag.position) = [(2, 6)] ∧
    ((LoadNote asciiRC ("![ #a ](x)".toList)).Images.map
      fun i => i.position) = [(0, 10)] ∧
    max 2 0 < min 6 10 := by
  refine ⟨by decide, by decide, by decide⟩

/-- C4 (amended): within each single collection produced by `LoadNote` —
tags, files, and images separately — the spans are pairwise non-overlapping
(in strictly ascending order, each span ending no later than the next one
starts); across different collections, overlaps are possible. -/
theorem claim_C4_amended (Γ : RuneClass) (t : List Char) :
    (((LoadNote Γ t).Tags.map fun tag => tag.position).Pairwise
      fun a b => a.2 ≤ b.1) ∧
    (((LoadNote Γ t).Files.map fun f => f.position).Pairwise
      fun a b => a.2 ≤ b.1) ∧
    (((LoadNote Γ t).Images.map fun i => i.position).Pairwise
      fun a b => a.2 ≤ b.1) := by
  refine ⟨?_, ?_, ?_⟩
  · exact ((tagFindAll_invariant Γ t).2).sublist
      (loadNote_tag_positions_sublist Γ t)
  · rw [loadNote_file_positions]
    exact (fileFindAll_invariant t).2
  · rw [loadNote_image_positions]
    exact (imageFindAll_invariant t).2

/-! ### Path escaping: component structure -/

theorem splitSlash_ne_nil (l : List Char) : splitSlash l ≠ [] := by
  cases l with
  | nil => simp [splitSlash]
  | cons c cs =>
    simp only [splitSlash]
    split
    · simp
    · cases h : splitSlash cs with
      | nil => simp
      | cons p ps => simp

theorem splitSlash_no_slash (l : List Char) :
    ∀ p ∈ splitSlash l, '/' ∉ p := by
  induction l with
  | nil => simp [splitSlash]
  | cons c cs ih =>
    simp only [splitSlash]
    split
    · intro p hp
      rcases List.mem_cons.mp hp with rfl | hp
      · simp
      · exact ih p hp
    · rename_i hc
      cases h : splitSlash cs with
      | nil => exact absurd h (splitSlash_ne_nil cs)
      | cons q qs =>
        intro p hp
        rcases List.mem_cons.mp hp with rfl | hp
        · intro hmem
          rcases List.mem_cons.mp hmem with h' | h'
          · exact hc h'.symm
          · exact ih q (h ▸ List.mem_cons_self q qs) h'
        · exact ih p (h ▸ List.mem_cons_of_mem q hp)

theorem splitSlash_slash_free (p : List Char) (hp : '/' ∉ p) :
    splitSlash p = [p] := by
  induction p with
  | nil => rfl
  | cons c cs ih =>
    simp only [splitSlash]
    rw [if_neg (by intro h; exact hp (by simp [h]))]
    rw [ih (by intro h; exact hp (List.mem_cons_of_mem c h))]

theorem splitSlash_append (p r : List Char) (hp : '/' ∉ p) :
    splitSlash (p ++ '/' :: r) = p :: splitSlash r := by
  induction p with
  | nil => simp [splitSlash]
  | cons c cs ih =>
    simp only [List.cons_append, splitSlash]
    rw [if_neg (by intro h; exact hp (by simp [h]))]
    rw [show cs.append ('/' :: r) = cs ++ '/' :: r from rfl,
      ih (by intro h; exact hp (List.mem_cons_of_mem c h))]

theorem splitSlash_intercalateSlash (parts : List (List Char))
    (hne : parts ≠ []) (hs : ∀ p ∈ parts, '/' ∉ p) :
    splitSlash (intercalateSlash parts) = parts := by
  induction parts with
  | nil => exact absurd rfl hne
  | cons p ps ih =>
    cases ps with
    | nil =>
      show splitSlash p = [p]
      exact splitSlash_slash_free p (hs p (by simp))
    | cons q qs =>
      show splitSlash (p ++ '/' :: intercalateSlash (q :: qs)) = _
      rw [splitSlash_append p _ (hs p (by simp))]
      rw [ih (by simp) fun r hr => hs r (List.mem_cons_of_mem p hr)]

theorem hexDig_facts (n : Nat) (hn : n < 16) :
    hexDig n ≠ '/' ∧ hexDig n ≠ '(' ∧ hexDig n ≠ ')' ∧
      hexVal (hexDig n) = some n := by
  interval_cases n <;> exact ⟨by decide, by decide, by decide, by decide⟩

theorem char_toNat_lt (c : Char) : c.toNat < 0x110000 := by
  have h : c.toNat = c.val.toNat := rfl
  rcases c.valid with hv | hv
  · omega
  · omega

theorem utf8Bytes_lt (c : Char) : ∀ b ∈ utf8Bytes c, b < 256 := by
  have hc := char_toNat_lt c
  intro b hb
  unfold utf8Bytes at hb
  dsimp only at hb
  split at hb
  · rename_i h1
    rw [List.mem_singleton] at hb
    omega
  split at hb
  · rename_i h1 h2
    rcases List.mem_cons.mp hb with rfl | hb
    · omega
    rcases List.mem_cons.mp hb with rfl | hb
    · omega
    · simp at hb
  split at hb
  · rename_i h1 h2 h3
    rcases List.mem_cons.mp hb with rfl | hb
    · omega
    rcases List.mem_cons.mp hb with rfl | hb
    · omega
    rcases List.mem_cons.mp hb with rfl | hb
    · omega
    · simp at hb
  · rename_i h1 h2 h3
    rcases List.mem_cons.mp hb with rfl | hb
    · omega
    rcases List.mem_cons.mp hb with rfl | hb
    · omega
    rcases List.mem_cons.mp hb with rfl | hb
    · omega
    rcases List.mem_cons.mp hb with rfl | hb
    · omega
    · simp at hb

theorem pathEscape_mem (l : List Char) (c : Char) (hc : c ∈ pathEscape l) :
    isUnreservedSeg c = true ∨ c = '%' ∨ ∃ n < 16, c = hexDig n := by
  unfold pathEscape at hc
  rw [List.mem_flatMap] at hc
  obtain ⟨d, -, hd⟩ := hc
  split at hd
  · rename_i hres
    rw [List.mem_singleton] at hd
    subst hd
    exact Or.inl hres
  · rw [List.mem_flatMap] at hd
    obtain ⟨b, hb, hcb⟩ := hd
    have hb256 : b < 256 := utf8Bytes_lt d b hb
    unfold percentEnc at hcb
    rcases List.mem_cons.mp hcb with rfl | hcb
    · exact Or.inr (Or.inl rfl)
    rcases List.mem_cons.mp hcb with rfl | hcb
    · exact Or.inr (Or.inr ⟨b / 16, by omega, rfl⟩)
    rcases List.mem_cons.mp hcb with rfl | hcb
    · exact Or.inr (Or.inr ⟨b % 16, by omega, rfl⟩)
    · simp at hcb

theorem pathEscape_no_slash (l : List Char) : '/' ∉ pathEscape l := by
  intro hc
  rcases pathEscape_mem l '/' hc with h | h | ⟨n, hn, h⟩
  · exact absurd h (by decide)
  · exact absurd h (by decide)
  · exact absurd h.symm (hexDig_facts n hn).1

theorem pathEscape_no_paren (l : List Char) :
    '(' ∉ pathEscape l ∧ ')' ∉ pathEscape l := by
  constructor
  · intro hc
    rcases pathEscape_mem l '(' hc with h | h | ⟨n, hn, h⟩
    · exact absurd h (by decide)
    · exact absurd h (by decide)
    · exact absurd h.symm (hexDig_facts n hn).2.1
  · intro hc
    rcases pathEscape_mem l ')' hc with h | h | ⟨n, hn, h⟩
    · exact absurd h (by decide)
    · exact absurd h (by decide)
    · exact absurd h.symm (hexDig_facts n hn).2.2.1

/-! ### Claim C9 -/

/-- C9: `escapePath` percent-encodes each `/`-delimited component
independently and leaves every `/` literal: splitting the escaped path on
`/` yields exactly the componentwise escapes, and the documented location
renders with `(` and `)` encoded and `/` preserved. -/
theorem claim_C9 :
    (∀ p : List Char,
      splitSlash (escapePath p) = (splitSlash p).map pathEscape) ∧
    escapePath ("note_with_nested(parenthesis)/test.jpg".toList) =
      "note_with_nested%28parenthesis%29/test.jpg".toList := by
  constructor
  · intro p
    unfold escapePath
    rw [splitSlash_intercalateSlash]
    · intro hcon
      exact splitSlash_ne_nil p (List.map_eq_nil_iff.mp hcon)
    · intro q hq
      rw [List.mem_map] at hq
      obtain ⟨r, -, rfl⟩ := hq
      exact pathEscape_no_slash r
  · decide

/-! ### Percent-encoding round trip -/

set_option maxRecDepth 4096 in
theorem utf8Step_length (l : List Nat) (p : Nat × List Nat)
    (h : utf8Step l = some p) : p.2.length < l.length := by
  unfold utf8Step at h
  dsimp only at h
  repeat' split at h
  all_goals cases h
  all_goals (dsimp only; simp only [List.length_cons]; omega)

theorem utf8DecodeAux_irrel : ∀ (f1 f2 : Nat) (l : List Nat),
    l.length ≤ f1 → l.length ≤ f2 →
      utf8DecodeAux f1 l = utf8DecodeAux f2 l := by
  intro f1
  induction f1 with
  | zero =>
    intro f2 l h1 h2
    have : l = [] := List.eq_nil_of_length_eq_zero (by omega)
    subst this
    cases f2 <;> rfl
  | succ f1 ih =>
    intro f2 l h1 h2
    match l with
    | [] => cases f2 <;> rfl
    | b :: bs =>
      match f2 with
      | 0 => exact absurd h2 (by simp)
      | f2 + 1 =>
        show (utf8Step (b :: bs)).bind _ = (utf8Step (b :: bs)).bind _
        cases hs : utf8Step (b :: bs) with
        | none => rfl
        | some p =>
          have hlen := utf8Step_length (b :: bs) p hs
          dsimp only [Option.bind]
          rw [ih f2 p.2 (by simp only [List.length_cons] at hlen h1; omega) (by simp only [List.length_cons] at hlen h2; omega)]

theorem utf8Decode_eq_step (b : Nat) (bs : List Nat) :
    utf8Decode (b :: bs) = (utf8Step (b :: bs)).bind fun p =>
      (Char.ofNat p.1 :: ·) <$> utf8Decode p.2 := by
  show utf8DecodeAux (bs.length + 1) (b :: bs) = _
  show (utf8Step (b :: bs)).bind _ = _
  cases hs : utf8Step (b :: bs) with
  | none => rfl
  | some p =>
    have hlen := utf8Step_length (b :: bs) p hs
    dsimp only [Option.bind]
    rw [utf8DecodeAux_irrel bs.length p.2.length p.2
      (by simp only [List.length_cons] at hlen; omega) (le_refl _)]
    rfl

theorem utf8Step_utf8Bytes (c : Char) (bs : List Nat) :
    utf8Step (utf8Bytes c ++ bs) = some (c.toNat, bs) := by
  have hlt := char_toNat_lt c
  have hsur : c.toNat < 0xD800 ∨ 0xE000 ≤ c.toNat := by
    have h : c.toNat = c.val.toNat := rfl
    rcases c.valid with hv | hv
    · omega
    · omega
  unfold utf8Bytes
  dsimp only
  by_cases h1 : c.toNat < 0x80
  · rw [if_pos h1]
    show utf8Step (c.toNat :: bs) = _
    unfold utf8Step
    dsimp only
    rw [if_pos h1]
  rw [if_neg h1]
  by_cases h2 : c.toNat < 0x800
  · rw [if_pos h2]
    show utf8Step ((0xC0 + c.toNat / 64) :: (0x80 + c.toNat % 64) :: bs) = _
    unfold utf8Step
    show (if 0xC0 + c.toNat / 64 < 0x80 then _ else _) = _
    rw [if_neg (by omega), if_neg (by omega), if_pos (by omega)]
    show (if (decide (0x80 ≤ 0x80 + c.toNat % 64) &&
      decide (0x80 + c.toNat % 64 < 0xC0)) = true then _ else none) = _
    rw [if_pos (by simp only [Bool.and_eq_true, decide_eq_true_eq]; omega)]
    dsimp only
    rw [show (0xC0 + c.toNat / 64 - 0xC0) * 64 +
      (0x80 + c.toNat % 64 - 0x80) = c.toNat by omega]
    rw [if_neg h1]
  rw [if_neg h2]
  by_cases h3 : c.toNat < 0x10000
  · rw [if_pos h3]
    show utf8Step ((0xE0 + c.toNat / 4096) :: (0x80 + c.toNat / 64 % 64)
      :: (0x80 + c.toNat % 64) :: bs) = _
    unfold utf8Step
    show (if 0xE0 + c.toNat / 4096 < 0x80 then _ else _) = _
    rw [if_neg (by omega), if_neg (by omega), if_neg (by omega),
      if_pos (by omega)]
    show (if ((decide (0x80 ≤ 0x80 + c.toNat / 64 % 64) &&
      decide (0x80 + c.toNat / 64 % 64 < 0xC0)) &&
      (decide (0x80 ≤ 0x80 + c.toNat % 64) &&
      decide (0x80 + c.toNat % 64 < 0xC0))) = true then _ else none) = _
    rw [if_pos (by simp only [Bool.and_eq_true, decide_eq_true_eq]; omega)]
    dsimp only
    rw [show (0xE0 + c.toNat / 4096 - 0xE0) * 4096 +
      (0x80 + c.toNat / 64 % 64 - 0x80) * 64 +
      (0x80 + c.toNat % 64 - 0x80) = c.toNat by omega]
    rw [if_neg (by simp only [Bool.or_eq_true, Bool.and_eq_true,
      decide_eq_true_eq]; omega)]
  · rw [if_neg h3]
    show utf8Step ((0xF0 + c.toNat / 0x40000) :: (0x80 + c.toNat / 4096 %
      64) :: (0x80 + c.toNat / 64 % 64) :: (0x80 + c.toNat % 64) :: bs) = _
    unfold utf8Step
    show (if 0xF0 + c.toNat / 0x40000 < 0x80 then _ else _) = _
    rw [if_neg (by omega), if_neg (by omega), if_neg (by omega),
      if_neg (by omega), if_pos (by omega)]
    show (if (((decide (0x80 ≤ 0x80 + c.toNat / 4096 % 64) &&
      decide (0x80 + c.toNat / 4096 % 64 < 0xC0)) &&
      (decide (0x80 ≤ 0x80 + c.toNat / 64 % 64) &&
      decide (0x80 + c.toNat / 64 % 64 < 0xC0))) &&
      (decide (0x80 ≤ 0x80 + c.toNat % 64) &&
      decide (0x80 + c.toNat % 64 < 0xC0))) = true then _ else none) = _
    rw [if_pos (by simp only [Bool.and_eq_true, decide_eq_true_eq]; omega)]
    dsimp only
    rw [show (0xF0 + c.toNat / 0x40000 - 0xF0) * 0x40000 +
      (0x80 + c.toNat / 4096 % 64 - 0x80) * 4096 +
      (0x80 + c.toNat / 64 % 64 - 0x80) * 64 +
      (0x80 + c.toNat % 64 - 0x80) = c.toNat by omega]
    rw [if_neg (by simp only [Bool.or_eq_true, decide_eq_true_eq]; omega)]

theorem utf8Bytes_ne_nil (c : Char) : utf8Bytes c ≠ [] := by
  unfold utf8Bytes
  dsimp only
  split
  · simp
  split
  · simp
  split <;> simp

theorem utf8Decode_utf8Bytes (c : Char) (bs : List Nat) :
    utf8Decode (utf8Bytes c ++ bs) = (c :: ·) <$> utf8Decode bs := by
  cases hu : utf8Bytes c with
  | nil => exact absurd hu (utf8Bytes_ne_nil c)
  | cons x xs =>
    have hstep := utf8Step_utf8Bytes c bs
    rw [hu] at hstep
    show utf8Decode (x :: (xs ++ bs)) = _
    rw [utf8Decode_eq_step]
    show (utf8Step (x :: xs ++ bs)).bind _ = _
    rw [hstep]
    dsimp only [Option.bind]
    rw [Char.ofNat_toNat]

theorem utf8Decode_utf8Str (s : List Char) :
    utf8Decode (utf8Str s) = some s := by
  induction s with
  | nil => rfl
  | cons c cs ih =>
    show utf8Decode (utf8Bytes c ++ utf8Str cs) = _
    rw [utf8Decode_utf8Bytes, ih]
    rfl

theorem decodeToBytes_cons_ne (c : Char) (rest : List Char)
    (hc : c ≠ '%') : decodeToBytes (c :: rest) =
      (utf8Bytes c ++ ·) <$> decodeToBytes rest := by
  conv_lhs => unfold decodeToBytes
  rw [if_neg hc]

theorem decodeToBytes_percentEnc (b : Nat) (hb : b < 256)
    (rest : List Char) : decodeToBytes (percentEnc b ++ rest) =
      (b :: ·) <$> decodeToBytes rest := by
  show decodeToBytes ('%' :: hexDig (b / 16) :: hexDig (b % 16) :: rest) = _
  conv_lhs => unfold decodeToBytes
  rw [if_pos rfl]
  show (match hexVal (hexDig (b / 16)), hexVal (hexDig (b % 16)) with
    | some h, some l => ((16 * h + l) :: ·) <$> decodeToBytes rest
    | _, _ => none) = _
  rw [(hexDig_facts (b / 16) (by omega)).2.2.2,
    (hexDig_facts (b % 16) (by omega)).2.2.2]
  show ((16 * (b / 16) + b % 16) :: ·) <$> decodeToBytes rest = _
  rw [show 16 * (b / 16) + b % 16 = b by omega]

theorem decodeToBytes_bytes (bs : List Nat) (hb : ∀ b ∈ bs, b < 256)
    (rest : List Char) :
    decodeToBytes (bs.flatMap percentEnc ++ rest) =
      (bs ++ ·) <$> decodeToBytes rest := by
  induction bs with
  | nil =>
    simp only [List.flatMap_nil, List.nil_append]
    cases h : decodeToBytes rest <;> simp
  | cons b bs' ih =>
    rw [List.flatMap_cons, List.append_assoc,
      decodeToBytes_percentEnc b (hb b (by simp)) _,
      ih fun x hx => hb x (by simp [hx])]
    cases h : decodeToBytes rest <;> simp

theorem decodeToBytes_pathEscape (s : List Char) (rest : List Char) :
    decodeToBytes (pathEscape s ++ rest) =
      (utf8Str s ++ ·) <$> decodeToBytes rest := by
  induction s with
  | nil =>
    show decodeToBytes rest = _
    cases h : decodeToBytes rest <;> simp [utf8Str]
  | cons c cs ih =>
    show decodeToBytes (((if isUnreservedSeg c then [c]
      else (utf8Bytes c).flatMap percentEnc) ++ pathEscape cs) ++ rest) = _
    have hstr : utf8Str (c :: cs) = utf8Bytes c ++ utf8Str cs := rfl
    rw [hstr]
    split
    · rename_i hres
      have hc : c ≠ '%' := by
        intro h
        subst h
        exact absurd hres (by decide)
      rw [List.singleton_append, List.cons_append, decodeToBytes_cons_ne c (pathEscape cs ++ rest) hc, ih]
      cases h : decodeToBytes rest <;> simp
    · rw [List.append_assoc, decodeToBytes_bytes _ (utf8Bytes_lt c) _, ih]
      cases h : decodeToBytes rest <;> simp

theorem intercalateSlash_splitSlash (l : List Char) :
    intercalateSlash (splitSlash l) = l := by
  induction l with
  | nil => rfl
  | cons c cs ih =>
    simp only [splitSlash]
    split
    · rename_i hc
      subst hc
      cases h : splitSlash cs with
      | nil => exact absurd h (splitSlash_ne_nil cs)
      | cons p ps =>
        show [] ++ '/' :: intercalateSlash (p :: ps) = _
        rw [h] at ih
        rw [List.nil_append, ih]
    · cases h : splitSlash cs with
      | nil => exact absurd h (splitSlash_ne_nil cs)
      | cons p ps =>
        rw [h] at ih
        cases ps with
        | nil =>
          show c :: p = c :: cs
          rw [show p = intercalateSlash [p] from rfl, ih]
        | cons q qs =>
          show (c :: p) ++ '/' :: intercalateSlash (q :: qs) = c :: cs
          rw [List.cons_append, ← ih]
          rfl

theorem decodeToBytes_escapePath (p : List Char) :
    decodeToBytes (escapePath p) = some (utf8Str p) := by
  unfold escapePath
  have main : ∀ (parts : List (List Char)) (rest : List Char),
      decodeToBytes (intercalateSlash (parts.map pathEscape) ++ rest) =
        (utf8Str (intercalateSlash parts) ++ ·) <$> decodeToBytes rest := by
    intro parts
    induction parts with
    | nil =>
      intro rest
      show decodeToBytes rest = (utf8Str [] ++ ·) <$> decodeToBytes rest
      cases h : decodeToBytes rest <;> simp [utf8Str]
    | cons q qs ih =>
      intro rest
      cases qs with
      | nil => exact decodeToBytes_pathEscape q rest
      | cons q2 qs2 =>
        show decodeToBytes (pathEscape q ++ '/' ::
          intercalateSlash ((q2 :: qs2).map pathEscape) ++ rest) = _
        rw [List.append_assoc, decodeToBytes_pathEscape q _,
          List.cons_append, decodeToBytes_cons_ne '/' _ (by decide), ih]
        have hstr : utf8Str (q ++ '/' :: intercalateSlash (q2 :: qs2)) =
            utf8Str q ++ '/'.toNat :: utf8Str (intercalateSlash
              (q2 :: qs2)) := by
          unfold utf8Str
          rw [List.flatMap_append, List.flatMap_cons]
          rfl
        show _ = (utf8Str (q ++ '/' :: intercalateSlash (q2 :: qs2)) ++ ·)
          <$> decodeToBytes rest
        rw [hstr]
        cases h : decodeToBytes rest <;> simp [utf8Bytes]
  have := main (splitSlash p) []
  rw [List.append_nil] at this
  rw [this, intercalateSlash_splitSlash]
  show (utf8Str p ++ ·) <$> (some [] : Option (List Nat)) = _
  simp

theorem pathUnescape_escapePath (p : List Char) :
    pathUnescape (escapePath p) = some p := by
  unfold pathUnescape
  rw [decodeToBytes_escapePath]
  show utf8Decode (utf8Str p) = some p
  exact utf8Decode_utf8Str p

/-! ### Re-parsing a rendered image -/

theorem getElem?_append_mid (l1 l2 : List Char) (c : Char) :
    (l1 ++ c :: l2)[l1.length]? = some c := by
  rw [List.getElem?_append_right (le_refl _)]
  simp

theorem slice_take_drop (t : List Char) (a b : Nat) :
    slice t a b = (t.drop a).take (b - a) := by
  unfold slice
  exact List.drop_take b a t

theorem mem_intercalateSlash (c : Char) (l : List (List Char))
    (h : c ∈ intercalateSlash l) : c = '/' ∨ ∃ p ∈ l, c ∈ p := by
  induction l with
  | nil => exact absurd h (by simp [intercalateSlash])
  | cons p ps ih =>
    cases ps with
    | nil => exact Or.inr ⟨p, by simp, h⟩
    | cons q qs =>
      have h2 : c ∈ p ++ '/' :: intercalateSlash (q :: qs) := h
      rcases List.mem_append.mp h2 with hp | hr
      · exact Or.inr ⟨p, by simp, hp⟩
      · rcases List.mem_cons.mp hr with rfl | hr2
        · exact Or.inl rfl
        · rcases ih hr2 with h3 | ⟨r, hr3, hc3⟩
          · exact Or.inl h3
          · exact Or.inr ⟨r, List.mem_cons_of_mem p hr3, hc3⟩

theorem escapePath_no_paren (p : List Char) :
    '(' ∉ escapePath p ∧ ')' ∉ escapePath p := by
  constructor <;> intro hc
  · rcases mem_intercalateSlash _ _ hc with h | ⟨q, hq, hcq⟩
    · exact absurd h (by decide)
    · rw [List.mem_map] at hq
      obtain ⟨r, -, rfl⟩ := hq
      exact (pathEscape_no_paren r).1 hcq
  · rcases mem_intercalateSlash _ _ hc with h | ⟨q, hq, hcq⟩
    · exact absurd h (by decide)
    · rw [List.mem_map] at hq
      obtain ⟨r, -, rfl⟩ := hq
      exact (pathEscape_no_paren r).2 hcq

theorem escapePath_nil (p : List Char) (h : escapePath p = []) : p = [] := by
  have h2 := pathUnescape_escapePath p
  rw [h] at h2
  have h3 : (some [] : Option (List Char)) = some p := h2
  injection h3 with h3
  exact h3.symm

theorem image_string_drop (d esc : List Char) :
    ('!' :: '[' :: (d ++ ']' :: '(' :: (esc ++ [')']))).drop
      (4 + d.length) = esc ++ [')'] := by
  rw [show 4 + d.length = d.length + 2 + 1 + 1 by omega]
  rw [show ('!' :: '[' :: (d ++ ']' :: '(' :: (esc ++ [')']))).drop
    (d.length + 2 + 1 + 1) = (d ++ ']' :: '(' :: (esc ++ [')'])).drop
    (d.length + 2) from rfl]
  rw [List.drop_append 2]
  rfl

theorem litAt_cons_eq (t : List Char) (i : Nat) (c : Char)
    (cs : List Char) :
    litAt t i (c :: cs) = match t[i]? with
      | some e => e == c && litAt t (i + 1) cs
      | none => false := rfl

theorem imageTryAt_concat (d esc : List Char)
    (hd : ']' ∉ d) (hp1 : '(' ∉ esc) (hp2 : ')' ∉ esc)
    (hE : 1 ≤ esc.length) :
    imageTryAt ('!' :: '[' :: (d ++ ']' :: '(' :: (esc ++ [')']))) 0 =
      some ⟨0, d.length, 4 + d.length, esc.length,
        d.length + esc.length + 5⟩ := by
  obtain ⟨x, xs, rfl⟩ : ∃ x xs, esc = x :: xs := by
    cases esc with
    | nil => simp at hE
    | cons x xs => exact ⟨x, xs, rfl⟩
  have f1 : litAt ('!' :: '[' :: (d ++ ']' :: '(' :: ((x :: xs) ++ [')'])))
      0 ['!', '['] = true := by
    simp [litAt]
  have g1 : ('!' :: '[' :: (d ++ ']' :: '(' :: ((x :: xs) ++
      [')'])))[2 + d.length]? = some ']' := by
    rw [show 2 + d.length = d.length + 1 + 1 by omega,
      List.getElem?_cons_succ, List.getElem?_cons_succ]
    exact getElem?_append_mid d _ ']'
  have g2 : ('!' :: '[' :: (d ++ ']' :: '(' :: ((x :: xs) ++
      [')'])))[2 + d.length + 1]? = some '(' := by
    rw [show 2 + d.length + 1 = d.length + 1 + 1 + 1 by omega,
      List.getElem?_cons_succ, List.getElem?_cons_succ,
      List.getElem?_append_right (by omega : d.length ≤ d.length + 1)]
    rw [show d.length + 1 - d.length = 1 by omega]
    rfl
  have f2 : runLen (· ≠ ']')
      (('!' :: '[' :: (d ++ ']' :: '(' :: ((x :: xs) ++ [')']))).drop 2) =
      d.length := by
    rw [show ('!' :: '[' :: (d ++ ']' :: '(' :: ((x :: xs) ++
      [')']))).drop 2 = d ++ ']' :: '(' :: ((x :: xs) ++ [')']) from rfl]
    refine runLen_eq_of_stop _ d _
      (fun c hc => decide_eq_true fun he => hd (he ▸ hc)) ?_
    exact Or.inr ⟨']', _, rfl, by decide⟩
  have f3 : litAt ('!' :: '[' :: (d ++ ']' :: '(' :: ((x :: xs) ++ [')'])))
      (2 + d.length) [']', '('] = true := by
    rw [litAt_cons_eq, g1]
    show (']' == ']' && litAt ('!' :: '[' :: (d ++ ']' :: '(' ::
      ((x :: xs) ++ [')']))) (2 + d.length + 1) ['(']) = true
    rw [litAt_cons_eq, g2]
    show (']' == ']' && ('(' == '(' && true)) = true
    decide
  have f4 : runLen (· ≠ '(')
      (('!' :: '[' :: (d ++ ']' :: '(' :: ((x :: xs) ++ [')']))).drop
        (4 + d.length)) = xs.length + 2 := by
    rw [image_string_drop]
    rw [runLen_all]
    · simp
    · intro c hc
      rcases List.mem_append.mp hc with h | h
      · exact decide_eq_true fun he => hp1 (he ▸ h)
      · rw [List.mem_singleton] at h
        subst h
        decide
  have hdrop5 : ('!' :: '[' :: (d ++ ']' :: '(' :: ((x :: xs) ++
      [')']))).drop (4 + d.length + 1) = xs ++ [')'] := by
    rw [show 4 + d.length + 1 = d.length + 2 + 1 + 1 + 1 by omega]
    rw [show ('!' :: '[' :: (d ++ ']' :: '(' :: ((x :: xs) ++
      [')']))).drop (d.length + 2 + 1 + 1 + 1) = (d ++ ']' :: '(' ::
      ((x :: xs) ++ [')'])).drop (d.length + 2 + 1) from rfl]
    rw [show d.length + 2 + 1 = d.length + 3 by omega, List.drop_append 3]
    rfl
  have f5 : lastIdxOf? (· = ')')
      (slice ('!' :: '[' :: (d ++ ']' :: '(' :: ((x :: xs) ++ [')'])))
        (0 + 4 + d.length + 1) (0 + 4 + d.length + (xs.length + 2))) =
      some xs.length := by
    have hs : slice ('!' :: '[' :: (d ++ ']' :: '(' :: ((x :: xs) ++
        [')']))) (0 + 4 + d.length + 1) (0 + 4 + d.length +
        (xs.length + 2)) = xs ++ [')'] := by
      rw [slice_take_drop]
      rw [show 0 + 4 + d.length + (xs.length + 2) - (0 + 4 + d.length + 1)
        = xs.length + 1 by omega]
      rw [show 0 + 4 + d.length + 1 = 4 + d.length + 1 by omega, hdrop5]
      exact List.take_of_length_le (by simp)
    rw [hs]
    have := lastIdxOf?_of_last (· = ')') (xs ++ [')']) ')'
      (by simp) (by rw [show (xs ++ [')']).length - 1 = xs.length by simp]
                    exact getElem?_append_mid xs [] ')') (by decide)
    rw [this]
    simp
  have hb := imageTryAt_build _ 0 d.length (xs.length + 2) xs.length
    f1 f2 f3 f4 f5
  rw [hb]
  have e1 : (x :: xs).length = xs.length + 1 := rfl
  have e2 : (⟨0, d.length, 0 + 4 + d.length, xs.length + 1,
      0 + 4 + d.length + xs.length + 2⟩ : ImageM) =
      ⟨0, d.length, 4 + d.length, (x :: xs).length,
        d.length + (x :: xs).length + 5⟩ := by
    rw [e1]
    congr 1
    all_goals omega
  rw [e2]

theorem newImage_string_reparse (i : Image) (hd : ']' ∉ i.Description)
    (hL : i.Location ≠ []) (pos : Nat × Nat) :
    NewImage (Image.string i) pos = ⟨i.Location, i.Description, pos⟩ := by
  obtain ⟨L, d, ip⟩ := i
  have hparen := escapePath_no_paren L
  have hEpos : 1 ≤ (escapePath L).length := by
    cases hesc : escapePath L with
    | nil => exact absurd (escapePath_nil L hesc) hL
    | cons x xs => simp
  have hm := imageTryAt_concat d (escapePath L) hd hparen.1 hparen.2 hEpos
  have ht0 : Image.string ⟨L, d, ip⟩ =
      ('!' :: '[' :: d) ++ (']' :: '(' :: escapePath L) ++ [')'] := rfl
  have ht : Image.string ⟨L, d, ip⟩ =
      '!' :: '[' :: (d ++ ']' :: '(' :: (escapePath L ++ [')'])) := by
    rw [ht0, List.append_assoc]
    rfl
  rw [ht, NewImage_eq _ pos _ hm]
  dsimp only
  have hs1 : slice ('!' :: '[' :: (d ++ ']' :: '(' :: (escapePath L ++
      [')']))) (4 + d.length) (4 + d.length + (escapePath L).length) =
      escapePath L := by
    rw [slice_take_drop]
    rw [show 4 + d.length + (escapePath L).length - (4 + d.length) =
      (escapePath L).length by omega]
    rw [image_string_drop]
    exact List.take_left _ _
  have hs2 : slice ('!' :: '[' :: (d ++ ']' :: '(' :: (escapePath L ++
      [')']))) (0 + 2) (0 + 2 + d.length) = d := by
    rw [slice_take_drop]
    rw [show 0 + 2 + d.length - (0 + 2) = d.length by omega]
    rw [show ('!' :: '[' :: (d ++ ']' :: '(' :: (escapePath L ++
      [')']))).drop (0 + 2) = d ++ ']' :: '(' :: (escapePath L ++ [')'])
      from rfl]
    exact List.take_left _ _
  rw [hs1, hs2, pathUnescape_escapePath]
  rfl

/-! ### Claim C10 -/

/-- C10, counterexample to the re-parsing consequence for file references:
rendering a `File` produces the Zettlr Markdown form `[name](path)`, which
`reFile` (HTML `<a href>` syntax) does not match, so re-parsing the
rendered form with `NewFile` yields the zero `File` whose `Location` is
empty, not the `Location` that was rendered. -/
theorem claim_C10_counterexample :
    (NewFile (File.string ⟨['a'], ['b'], (0, 6)⟩) (0, 6)).Location ≠
      ['a'] := by decide

/-- C10, amended: percent-decoding inverts `escapePath` exactly
(`url.PathUnescape` succeeds on every rendered path and returns the
original), and re-parsing the rendered form of an image whose description
contains no `]` and whose location is nonempty recovers the decoded
`Location` and the `Description` verbatim; the analogous consequence for
rendered file references is refuted by the counterexample. -/
theorem claim_C10_amended :
    (∀ p : List Char, pathUnescape (escapePath p) = some p) ∧
    ∀ i : Image, ']' ∉ i.Description → i.Location ≠ [] → ∀ pos,
      NewImage (Image.string i) pos = ⟨i.Location, i.Description, pos⟩ :=
  ⟨pathUnescape_escapePath, fun i hd hL pos =>
    newImage_string_reparse i hd hL pos⟩

/-- Witness for the amended C10 at concrete inputs. -/
theorem claim_C10_amended_witness :
    pathUnescape (escapePath ['a', '/', 'b', ' ']) =
      some ['a', '/', 'b', ' '] ∧
    NewImage (Image.string ⟨['p'], ['d'], (0, 0)⟩) (0, 9) =
      ⟨['p'], ['d'], (0, 9)⟩ :=
  ⟨claim_C10_amended.1 ['a', '/', 'b', ' '],
   claim_C10_amended.2 ⟨['p'], ['d'], (0, 0)⟩ (by decide) (by decide)
     (0, 9)⟩

/-! ### Claim C5 -/

/-- C5, counterexample: on a file link whose href contains the malformed
percent escape `%zz`, the captured raw path is `a%zz`, but `NewFile` sets
`Location` to the empty string (`url.PathUnescape` returns `""` together
with the error that the code discards), not to the raw captured string. -/
theorem claim_C5_counterexample :
    (NewFile ("<a href=\"a%zz\">n</a>".toList) (0, 20)).Location = [] ∧
    slice ("<a href=\"a%zz\">n</a>".toList) 9 13 = "a%zz".toList ∧
    ([] : List Char) ≠ "a%zz".toList := by decide

/-- C5, amended: when percent-decoding of the captured path fails, the
item is still produced, with the other captured field intact, but its
`Location` is the empty string rather than the raw captured text; and the
parse as a whole always produces one item per structural match. -/
theorem claim_C5_amended :
    (∀ content pos m, fileFindFrom content 0 = some m →
      pathUnescape (slice content m.locStart (m.locStart + m.locLen)) =
        none →
      NewFile content pos =
        ⟨[], slice content m.nameStart (m.nameStart + m.nameLen), pos⟩) ∧
    (∀ content pos m, imageFindFrom content 0 = some m →
      pathUnescape (slice content m.locStart (m.locStart + m.locLen)) =
        none →
      NewImage content pos =
        ⟨[], slice content (m.start + 2) (m.start + 2 + m.descLen),
          pos⟩) ∧
    ∀ Γ t, (LoadNote Γ t).Files.length = (fileFindAll t).length ∧
      (LoadNote Γ t).Images.length = (imageFindAll t).length := by
  refine ⟨?_, ?_, ?_⟩
  · intro content pos m h hdec
    unfold NewFile
    rw [h]
    show (⟨(pathUnescape (slice content m.locStart
        (m.locStart + m.locLen))).getD [],
      slice content m.nameStart (m.nameStart + m.nameLen), pos⟩ : File) = _
    rw [hdec]
    rfl
  · intro content pos m h hdec
    unfold NewImage
    rw [h]
    show (⟨(pathUnescape (slice content m.locStart
        (m.locStart + m.locLen))).getD [],
      slice content (m.start + 2) (m.start + 2 + m.descLen), pos⟩ :
        Image) = _
    rw [hdec]
    rfl
  · intro Γ t
    constructor
    · rw [← loadNote_file_positions Γ t, List.length_map]
    · rw [← loadNote_image_positions Γ t, List.length_map]

/-- Witness for the amended C5 at concrete inputs with a malformed percent
escape in the path. -/
theorem claim_C5_amended_witness :
    NewFile ("<a href=\"a%zz\">n</a>".toList) (0, 20) =
      ⟨[], slice ("<a href=\"a%zz\">n</a>".toList) 15 (15 + 1),
        (0, 20)⟩ ∧
    NewImage ("![d](a%zz)".toList) (0, 10) =
      ⟨[], slice ("![d](a%zz)".toList) (0 + 2) (0 + 2 + 1), (0, 10)⟩ :=
  ⟨claim_C5_amended.1 _ (0, 20) ⟨0, 9, 4, 15, 1, 20⟩ (by decide)
      (by decide),
   claim_C5_amended.2.1 _ (0, 10) ⟨0, 1, 5, 4, 10⟩ (by decide)
      (by decide)⟩

/-! ### Congruence: the parse only consults the tables on runes of the
text, so any table agreeing with the ASCII restriction parses an all-ASCII
text exactly like `asciiRC` -/

theorem mem_of_mem_slice {c : Char} {t : List Char} {a b : Nat}
    (h : c ∈ slice t a b) : c ∈ t :=
  List.mem_of_mem_take (List.mem_of_mem_drop h)

theorem runLen_congr (p q : Char → Bool) (l : List Char)
    (h : ∀ c ∈ l, p c = q c) : runLen p l = runLen q l := by
  induction l with
  | nil => rfl
  | cons c cs ih =>
    simp only [runLen]
    rw [h c (by simp), ih fun d hd => h d (List.mem_cons_of_mem c hd)]

theorem inTagStar_congr (Γ Γ2 : RuneClass) (c : Char)
    (h1 : Γ.letter c = Γ2.letter c) (h2 : Γ.number c = Γ2.number c) :
    inTagStar Γ c = inTagStar Γ2 c := by
  unfold inTagStar
  rw [h1, h2]

theorem tagCoreAt_congr (Γ Γ2 : RuneClass) (t : List Char) (i : Nat)
    (hag : ∀ c ∈ t, Γ.letter c = Γ2.letter c) :
    tagCoreAt Γ t i = tagCoreAt Γ2 t i := by
  unfold tagCoreAt
  cases h : t[i + 1]? with
  | none => rfl
  | some c =>
    show (t[i]? == some '#' && Γ.letter c) =
      (t[i]? == some '#' && Γ2.letter c)
    rw [hag c (List.getElem?_mem h)]

theorem tagNameLenAt_congr (Γ Γ2 : RuneClass) (t : List Char)
    (hashPos : Nat)
    (hag : ∀ c ∈ t, Γ.letter c = Γ2.letter c ∧ Γ.number c = Γ2.number c) :
    tagNameLenAt Γ t hashPos = tagNameLenAt Γ2 t hashPos := by
  unfold tagNameLenAt
  congr 1
  apply runLen_congr
  intro c hc
  have hcm : c ∈ t := List.mem_of_mem_drop hc
  exact inTagStar_congr Γ Γ2 c (hag c hcm).1 (hag c hcm).2

theorem tagMk_congr (Γ Γ2 : RuneClass) (t : List Char) (s g1len : Nat)
    (hag : ∀ c ∈ t, Γ.letter c = Γ2.letter c ∧ Γ.number c = Γ2.number c) :
    tagMk Γ t s g1len = tagMk Γ2 t s g1len := by
  unfold tagMk
  rw [tagNameLenAt_congr Γ Γ2 t (s + g1len) hag]

theorem tagTryAt_congr (Γ Γ2 : RuneClass) (t : List Char) (s : Nat)
    (hag : ∀ c ∈ t, Γ.letter c = Γ2.letter c ∧ Γ.number c = Γ2.number c) :
    tagTryAt Γ t s = tagTryAt Γ2 t s := by
  have hl : ∀ c ∈ t, Γ.letter c = Γ2.letter c := fun c hc => (hag c hc).1
  unfold tagTryAt
  rw [tagCoreAt_congr Γ Γ2 t 0 hl, tagCoreAt_congr Γ Γ2 t (s + 1) hl,
    tagCoreAt_congr Γ Γ2 t s hl, tagMk_congr Γ Γ2 t 0 0 hag,
    tagMk_congr Γ Γ2 t s 1 hag, tagMk_congr Γ Γ2 t s 0 hag]

theorem findSome?_congr {α β : Type} (f g : α → Option β) (l : List α)
    (h : ∀ a ∈ l, f a = g a) : l.findSome? f = l.findSome? g := by
  induction l with
  | nil => rfl
  | cons a as ih =>
    rw [List.findSome?_cons, List.findSome?_cons, h a (by simp)]
    cases g a with
    | some b => rfl
    | none => exact ih fun x hx => h x (List.mem_cons_of_mem a hx)

theorem tagFindFrom_congr (Γ Γ2 : RuneClass) (t : List Char) (pos : Nat)
    (hag : ∀ c ∈ t, Γ.letter c = Γ2.letter c ∧ Γ.number c = Γ2.number c) :
    tagFindFrom Γ t pos = tagFindFrom Γ2 t pos := by
  unfold tagFindFrom
  exact findSome?_congr _ _ _ fun s hs => tagTryAt_congr Γ Γ2 t s hag

theorem findAllAux_congr (next next2 : Nat → Option (Nat × Nat))
    (h : ∀ pos, next pos = next2 pos) :
    ∀ fuel pos, findAllAux next fuel pos = findAllAux next2 fuel pos := by
  intro fuel
  induction fuel with
  | zero => intro pos; rfl
  | succ fuel ih =>
    intro pos
    have e1 : findAllAux next (fuel + 1) pos = match next pos with
      | none => []
      | some (s, e) => (s, e) :: findAllAux next fuel (max e (pos + 1)) :=
      rfl
    have e2 : findAllAux next2 (fuel + 1) pos = match next2 pos with
      | none => []
      | some (s, e) => (s, e) :: findAllAux next2 fuel (max e (pos + 1)) :=
      rfl
    rw [e1, e2, h pos]
    cases next2 pos with
    | none => rfl
    | some se =>
      obtain ⟨s, e⟩ := se
      show (s, e) :: findAllAux next fuel (max e (pos + 1)) = _
      rw [ih]

theorem tagFindAll_congr (Γ Γ2 : RuneClass) (t : List Char)
    (hag : ∀ c ∈ t, Γ.letter c = Γ2.letter c ∧ Γ.number c = Γ2.number c) :
    tagFindAll Γ t = tagFindAll Γ2 t := by
  unfold tagFindAll
  exact findAllAux_congr _ _
    (fun pos => by rw [tagFindFrom_congr Γ Γ2 t pos hag]) _ _

theorem NewTag_congr (Γ Γ2 : RuneClass) (content : List Char)
    (pos : Nat × Nat)
    (hag : ∀ c ∈ content,
      Γ.letter c = Γ2.letter c ∧ Γ.number c = Γ2.number c) :
    NewTag Γ content pos = NewTag Γ2 content pos := by
  unfold NewTag
  rw [tagFindFrom_congr Γ Γ2 content 0 hag]

theorem loadNote_congr (Γ Γ2 : RuneClass) (t : List Char)
    (hag : ∀ c ∈ t, Γ.letter c = Γ2.letter c ∧ Γ.number c = Γ2.number c) :
    LoadNote Γ t = LoadNote Γ2 t := by
  unfold LoadNote
  rw [tagFindAll_congr Γ Γ2 t hag]
  congr 1
  apply List.filterMap_congr
  intro se hse
  rw [NewTag_congr Γ Γ2 (slice t se.1 se.2) se
    fun c hc => hag c (mem_of_mem_slice hc)]

theorem loadNote_ascii (Γ : RuneClass) (hag : AgreesOnAscii Γ)
    (t : List Char) (ht : ∀ c ∈ t, c.toNat < 128) :
    LoadNote Γ t = LoadNote asciiRC t :=
  loadNote_congr Γ asciiRC t fun c hc => hag c (ht c hc)

/-! ### Claims C3 and C7 -/

/-- C3: under any table agreeing with Unicode on ASCII, parsing
`#test/123` yields exactly one tag named `test/123`, parsing `a#b` yields
no tags, and parsing ` #trap#` yields no tags. -/
theorem claim_C3 (Γ : RuneClass) (hag : AgreesOnAscii Γ) :
    ((LoadNote Γ ("#test/123".toList)).Tags.map Tag.Name =
      ["test/123".toList]) ∧
    (LoadNote Γ ("a#b".toList)).Tags = [] ∧
    (LoadNote Γ (" #trap#".toList)).Tags = [] := by
  rw [loadNote_ascii Γ hag _ (by decide), loadNote_ascii Γ hag _ (by decide),
    loadNote_ascii Γ hag _ (by decide)]
  refine ⟨by decide, by decide, by decide⟩

/-- Witness for C3 at the concrete ASCII table. -/
theorem claim_C3_witness :
    ((LoadNote asciiRC ("#test/123".toList)).Tags.map Tag.Name =
      ["test/123".toList]) ∧
    (LoadNote asciiRC ("a#b".toList)).Tags = [] ∧
    (LoadNote asciiRC (" #trap#".toList)).Tags = [] :=
  claim_C3 asciiRC fun _ _ => ⟨rfl, rfl⟩

/-- C7: under any table agreeing with Unicode on ASCII, `#one #two`
parses to exactly two distinct tags, named `one` (span 0–5, consuming the
shared space as its after-boundary) and `two` (span 5–9). -/
theorem claim_C7 (Γ : RuneClass) (hag : AgreesOnAscii Γ) :
    (LoadNote Γ ("#one #two".toList)).Tags.map
        (fun tg => (tg.Name, tg.position)) =
      [("one".toList, (0, 5)), ("two".toList, (5, 9))] := by
  rw [loadNote_ascii Γ hag _ (by decide)]
  decide

/-- Witness for C7 at the concrete ASCII table. -/
theorem claim_C7_witness :
    (LoadNote asciiRC ("#one #two".toList)).Tags.map
        (fun tg => (tg.Name, tg.position)) =
      [("one".toList, (0, 5)), ("two".toList, (5, 9))] :=
  claim_C7 asciiRC fun _ _ => ⟨rfl, rfl⟩

/-! ### Claim C6 -/

/-- C6, counterexample: the name class requires a letter first.  `1` is in
the extra symbol set of the repetition class (`-0-9/...`), and `#1 ` has
valid boundaries, yet it parses to no tag, because the first name
character must be in `\p{L}` and a digit is not. -/
theorem claim_C6_counterexample :
    (LoadNote asciiRC ("#1 ".toList)).Tags = [] ∧
    inTagStar asciiRC '1' = true ∧ asciiRC.letter '1' = false := by
  decide

theorem tagTryAt_core (Γ : RuneClass) (t : List Char) (s : Nat) (m : TagM)
    (h : tagTryAt Γ t s = some m) :
    tagCoreAt Γ t (s + m.g1len) = true ∧
      m.nameLen = tagNameLenAt Γ t (s + m.g1len) := by
  unfold tagTryAt at h
  split at h
  · rename_i hcond
    rw [Bool.and_eq_true, beq_iff_eq] at hcond
    have hs0 : s = 0 := by simpa using hcond.1
    subst hs0
    injection h with h
    subst h
    constructor
    · show tagCoreAt Γ t (0 + 0) = true
      simpa using hcond.2
    · rfl
  · split at h
    · rename_i hcond
      rw [Bool.and_eq_true] at hcond
      injection h with h
      subst h
      exact ⟨hcond.2, rfl⟩
    · split at h
      · rename_i hcond
        injection h with h
        subst h
        constructor
        · show tagCoreAt Γ t (s + 0) = true
          simpa using hcond
        · rfl
      · exact Option.noConfusion h

theorem NewTag_eq (Γ : RuneClass) (content : List Char) (pos : Nat × Nat)
    (m : TagM) (h : tagFindFrom Γ content 0 = some m) :
    NewTag Γ content pos =
      if ((match slice content m.start (m.start + m.g1len) with
            | [] => true
            | c :: _ => goIsSpace c) &&
          (match slice content (m.start + m.g1len + 1 + m.nameLen) m.stop
              with
            | [] => true
            | c :: _ => goIsSpace c)) = true then
        ⟨slice content (m.start + m.g1len + 1)
            (m.start + m.g1len + 1 + m.nameLen), pos,
          slice content m.start (m.start + m.g1len),
          slice content (m.start + m.g1len + 1 + m.nameLen) m.stop⟩
      else Tag.zero := by
  unfold NewTag
  rw [h]

theorem NewTag_name_structure (Γ : RuneClass) (content : List Char)
    (pos : Nat × Nat)
    (hkeep : 0 < (NewTag Γ content pos).Name.length) :
    ∃ c cs, (NewTag Γ content pos).Name = c :: cs ∧ Γ.letter c = true ∧
      ∀ d ∈ cs, inTagStar Γ d = true := by
  cases hff : tagFindFrom Γ content 0 with
  | none =>
    have he : NewTag Γ content pos = Tag.zero := by
      unfold NewTag
      rw [hff]
    rw [he] at hkeep
    simp [Tag.zero] at hkeep
  | some m =>
    have he := NewTag_eq Γ content pos m hff
    rw [he] at hkeep ⊢
    split at hkeep
    rotate_left
    · simp [Tag.zero] at hkeep
    rename_i hok
    rw [if_pos hok]
    obtain ⟨-, htry⟩ := tagFindFrom_spec Γ content 0 m hff
    obtain ⟨hcore, hname⟩ := tagTryAt_core Γ content m.start m htry
    obtain ⟨hhash, c, hc, hlet⟩ := tagCoreAt_spec Γ content _ hcore
    obtain ⟨-, -, -, -, -, hstople⟩ := tagTryAt_spec Γ content m.start m
      htry
    have hstop2 : m.stop =
        m.start + m.g1len + 1 + m.nameLen + m.g3len := rfl
    have hnl : m.nameLen =
        1 + runLen (inTagStar Γ) (content.drop (m.start + m.g1len + 2)) :=
      hname
    have hlen : m.start + m.g1len + 1 + m.nameLen ≤ content.length := by
      omega
    refine ⟨c, slice content (m.start + m.g1len + 2)
      (m.start + m.g1len + 1 + m.nameLen), ?_, hlet, ?_⟩
    · show slice content (m.start + m.g1len + 1)
        (m.start + m.g1len + 1 + m.nameLen) = _
      have hsing : slice content (m.start + m.g1len + 1)
          (m.start + m.g1len + 2) = [c] := by
        rw [show m.start + m.g1len + 2 = m.start + m.g1len + 1 + 1 by
          omega]
        exact slice_singleton content (m.start + m.g1len + 1) c hc
      rw [← slice_append content (m.start + m.g1len + 1)
        (m.start + m.g1len + 2) (m.start + m.g1len + 1 + m.nameLen)
        (by omega) (by omega), hsing]
      rfl
    · apply mem_of_all_getElem?
      intro i hi
      rw [slice_length] at hi
      have hi2 : i < m.nameLen - 1 := by omega
      rw [slice_getElem?, if_pos (by omega)]
      obtain ⟨d, hdi, hpd⟩ := runLen_lt_getElem? (inTagStar Γ)
        (content.drop (m.start + m.g1len + 2)) i (by omega)
      rw [List.getElem?_drop] at hdi
      exact ⟨d, hdi, hpd⟩

/-- C6, amended: the repetition class of the tag grammar is {letter,
number, the extra symbols}, but the first name character must be a
letter: every parsed tag name is a letter followed by characters of the
repetition class (and, per the counterexample, a name may not start with
a digit or symbol). -/
theorem claim_C6_amended (Γ : RuneClass) (t : List Char) (tag : Tag)
    (htag : tag ∈ (LoadNote Γ t).Tags) :
    ∃ c cs, tag.Name = c :: cs ∧ Γ.letter c = true ∧
      ∀ d ∈ cs, inTagStar Γ d = true := by
  obtain ⟨se, hse, htageq, hkeep⟩ := loadNote_tags_mem Γ t tag htag
  rw [htageq]
  exact NewTag_name_structure Γ (slice t se.1 se.2) se (htageq ▸ hkeep)

/-- Witness for the amended C6 on a concrete parsed tag. -/
theorem claim_C6_amended_witness :
    ∃ c cs, (Tag.mk ("a1".toList) (0, 3) [] []).Name = c :: cs ∧
      asciiRC.letter c = true ∧ ∀ d ∈ cs, inTagStar asciiRC d = true :=
  claim_C6_amended asciiRC ("#a1".toList)
    (Tag.mk ("a1".toList) (0, 3) [] []) (by decide)

end Bearnotes
